import Mathlib

/-!
Verification of the DigestiveDatabase tiered-compression key-value store.

This file gives a shallow embedding of the store's in-memory operations
(`insert_binary`, `get_binary`, `remove`, `flush`, `reorganize`,
`delete_coldest_data`, `check_size_limit`, `after_operation`) and of the
chunking engine (`insert_chunked`, `get_chunk_range`, `get_chunk_path`),
and proves properties of the embedded code.

Modelling conventions:
* `std::map` is modelled as an association list sorted by key
  (`Smap`), since iteration order (ascending keys) is observable.
* Byte strings are lists of naturals; machine integers are `Nat`
  (with explicit wraparound where the source's `size_t` arithmetic can
  underflow, see `cpp_size_t_sub`).
* The system clock is an explicit `now : Nat` argument.
* The compression libraries (LZ4/ZSTD) are external collaborators; they
  are abstract `EncodeFn`/`DecodeFn` parameters.  The `NONE` algorithm is
  the identity, as in the source.  A library's failure-fallback path
  (returning the input) is one possible behaviour of the abstract
  function.
* `double` arithmetic in tier decisions is modelled by exact
  cross-multiplied integer comparisons (e.g. `ratio > 0.3` becomes
  `3 * total < 10 * count`); heat values of chunks are modelled as `ℚ`.
* The filesystem footprint consulted by `check_size_limit` is an
  abstract `disk_size` state field; the save functions write files but
  change no in-memory state, so they are identities on the modelled
  state.
-/

namespace Digestive

/-- Byte strings, as stored in `std::vector<uint8_t>`. -/
abbrev Bytes := List Nat

/-- `DecidableEq` on `String` routed through the structural core
decision procedure, so that concrete states evaluate inside the
kernel. -/
instance (priority := 10000) : DecidableEq String := fun a b => String.decEq a b

/-- Lexicographic comparison on code units, as `std::string`'s
`operator<` computes it, phrased as a boolean function the kernel can
evaluate. -/
def strLt : List Char → List Char → Bool
  | [], [] => false
  | [], _ :: _ => true
  | _ :: _, [] => false
  | a :: as, b :: bs =>
    if a.toNat < b.toNat then true
    else if b.toNat < a.toNat then false
    else strLt as bs

/-- `operator<` on `std::string` keys. -/
def strLtb (a b : String) : Bool := strLt a.data b.data

/-- `operator<` on `uint32_t` chunk ids. -/
def natLtb (a b : Nat) : Bool := decide (a < b)

section Maps

variable {κ : Type} {α : Type} [DecidableEq κ]

/-- An association list modelling `std::map<κ, α>`: kept sorted by the
map's key comparison. -/
abbrev Smap (κ : Type) (α : Type) := List (κ × α)

/-- Lookup in an association list (`map::find`). -/
def lookupA : Smap κ α → κ → Option α
  | [], _ => none
  | (k', v) :: m, k => if k' = k then some v else lookupA m k

/-- Ordered insertion (`map::operator[] =`) with respect to the key
comparison `ltk`: keeps keys sorted, replaces an existing binding. -/
def insertA (ltk : κ → κ → Bool) : Smap κ α → κ → α → Smap κ α
  | [], k, v => [(k, v)]
  | (k', v') :: m, k, v =>
    if ltk k k' then (k, v) :: (k', v') :: m
    else if k = k' then (k, v) :: m
    else (k', v') :: insertA ltk m k v

/-- Erasure (`map::erase`): removes the binding for `k` (all of them,
which coincides with `std::map::erase` on well-formed maps). -/
def eraseA : Smap κ α → κ → Smap κ α
  | [], _ => []
  | (k', v) :: m, k => if k' = k then eraseA m k else (k', v) :: eraseA m k

/-- Well-formedness of the association list: keys strictly ascending in
the key comparison, which is the `std::map` invariant. -/
def WfMap (ltk : κ → κ → Bool) (m : Smap κ α) : Prop :=
  m.Pairwise (fun a b => ltk a.1 b.1 = true)

end Maps

/-- Compression tiers (`enum class CompressionTier`), tier 0 hottest,
tier 4 coldest. -/
inductive CompressionTier
  | TIER_0
  | TIER_1
  | TIER_2
  | TIER_3
  | TIER_4
deriving DecidableEq

/-- Compression algorithms (`enum class CompressionAlgo`). -/
inductive CompressionAlgo
  | NONE
  | LZ4_FAST
  | LZ4_HIGH
  | ZSTD_FAST
  | ZSTD_MEDIUM
  | ZSTD_MAX
deriving DecidableEq

/-- Index of a tier into the `tier_configs` array
(`static_cast<int>(tier)`). -/
def tier_index : CompressionTier → Fin 5
  | .TIER_0 => 0
  | .TIER_1 => 1
  | .TIER_2 => 2
  | .TIER_3 => 3
  | .TIER_4 => 4

/-- Abstract compression backend: the LZ4/ZSTD library calls, one
encoder per (non-NONE) algorithm. -/
abbrev EncodeFn := CompressionAlgo → Bytes → Bytes

/-- Abstract decompression backend; takes the expected original size as
the libraries do. -/
abbrev DecodeFn := CompressionAlgo → Bytes → Nat → Bytes

/-- Configuration of one tier (`struct TierConfig`).  The custom hook
functions are optional, as in the source. -/
structure TierConfig where
  algorithm : CompressionAlgo
  compress_fn : Option (Bytes → Bytes)
  decompress_fn : Option (Bytes → Nat → Bytes)
  allow_lossy : Bool

/-- Reorganization strategies (`enum class ReorgStrategy`). -/
inductive ReorgStrategy
  | MANUAL
  | EVERY_N_OPS
  | PERIODIC
  | ADAPTIVE
deriving DecidableEq

/-- Database configuration (`struct DbConfig`).  The `double`
field `reorg_change_threshold` is modelled as an exact rational. -/
structure DbConfig where
  allow_deletion : Bool
  max_size_bytes : Nat
  compression_enabled : Bool
  tier_configs : Fin 5 → TierConfig
  reorg_strategy : ReorgStrategy
  reorg_operation_threshold : Nat
  reorg_time_threshold : Nat
  reorg_change_threshold : ℚ
  lazy_persistence : Bool
  write_buffer_size : Nat
  use_mmap : Bool

/-- Per-key metadata (`struct NodeMetadata`). -/
structure NodeMetadata where
  access_count : Nat
  last_access : Nat
  tier : CompressionTier
  algorithm : CompressionAlgo
  original_size : Nat
  compressed_size : Nat
deriving DecidableEq

/-- The in-memory state of a `DigestiveDatabase`.  `disk_size` is the
abstract on-disk footprint returned by `get_size_on_disk()`; the
in-memory operations modelled here never change it (data hits the disk
only in the save functions, which are identities on this state). -/
structure DbState where
  total_accesses : Nat
  operations_since_reorg : Nat
  last_reorg_time : Nat
  data_store : Smap String Bytes
  metadata_store : Smap String NodeMetadata
  write_buffer : Smap String Bytes
  write_buffer_current_size : Nat
  disk_size : Nat
deriving DecidableEq

/-- Well-formedness: the three `std::map`s have sorted keys. -/
def DbWf (st : DbState) : Prop :=
  WfMap strLtb st.data_store ∧ WfMap strLtb st.metadata_store ∧ WfMap strLtb st.write_buffer

/-- `compress_with_algo`: `NONE` is the identity, the other algorithms
call the (abstract) library encoder. -/
def compress_with_algo (enc : EncodeFn) (data : Bytes) : CompressionAlgo → Bytes
  | .NONE => data
  | a => enc a data

/-- `decompress_with_algo`: `NONE` is the identity, the other
algorithms call the (abstract) library decoder with `original_size`. -/
def decompress_with_algo (dec : DecodeFn) (data : Bytes) (algo : CompressionAlgo)
    (original_size : Nat) : Bytes :=
  match algo with
  | .NONE => data
  | a => dec a data original_size

/-- `DigestiveDatabase::compress`: a custom per-tier hook wins,
otherwise the tier's configured algorithm is used. -/
def compress (cfg : DbConfig) (enc : EncodeFn) (data : Bytes)
    (tier : CompressionTier) : Bytes :=
  match (cfg.tier_configs (tier_index tier)).compress_fn with
  | some f => f data
  | none => compress_with_algo enc data (cfg.tier_configs (tier_index tier)).algorithm

/-- `DigestiveDatabase::decompress` ignores the custom hooks and always
dispatches on the stored algorithm. -/
def decompress (dec : DecodeFn) (data : Bytes) (algo : CompressionAlgo)
    (original_size : Nat) : Bytes :=
  decompress_with_algo dec data algo original_size

/-- `calculate_tier`: maps an access count to a tier by comparing
`access_count / total_accesses` with 0.3, 0.15, 0.05, 0.01.  The
`double` divisions of the source are modelled as exact cross-multiplied
comparisons. -/
def calculate_tier (total_accesses access_count : Nat) : CompressionTier :=
  if total_accesses = 0 then .TIER_4
  else if 3 * total_accesses < 10 * access_count then .TIER_0
  else if 3 * total_accesses < 20 * access_count then .TIER_1
  else if total_accesses < 20 * access_count then .TIER_2
  else if total_accesses < 100 * access_count then .TIER_3
  else .TIER_4

/-- Subtraction of 64-bit unsigned machine integers (`size_t`,
`uint64_t`): wraps modulo `2^64` on underflow. -/
def cpp_size_t_sub (a b : Nat) : Nat :=
  (a + 2 ^ 64 - b) % 2 ^ 64

/-- `calculate_access_pattern_change`: operations since the last
reorganization divided by the number of items (0 when empty). -/
def calculate_access_pattern_change (st : DbState) : ℚ :=
  if st.metadata_store.isEmpty then 0
  else (st.operations_since_reorg : ℚ) / (st.metadata_store.length : ℚ)

/-- `should_reorganize`, by strategy. -/
def should_reorganize (cfg : DbConfig) (st : DbState) (now : Nat) : Bool :=
  match cfg.reorg_strategy with
  | .MANUAL => false
  | .EVERY_N_OPS => cfg.reorg_operation_threshold ≤ st.operations_since_reorg
  | .PERIODIC => cfg.reorg_time_threshold ≤ cpp_size_t_sub now st.last_reorg_time
  | .ADAPTIVE => cfg.reorg_change_threshold ≤ calculate_access_pattern_change st

/-- One step of `reorganize`'s loop body for the entry `(k, md)`: if the
freshly calculated tier or its algorithm differs from the stored one and
the key has a blob in the data map, decode with the old algorithm,
re-encode with the new one, and rewrite blob/tier/algorithm/size. -/
def reorg_entry (cfg : DbConfig) (enc : EncodeFn) (dec : DecodeFn)
    (total : Nat) (k : String) (md : NodeMetadata) (d : Smap String Bytes) :
    NodeMetadata × Smap String Bytes :=
  let new_tier := calculate_tier total md.access_count
  let new_algo := (cfg.tier_configs (tier_index new_tier)).algorithm
  if new_tier ≠ md.tier ∨ new_algo ≠ md.algorithm then
    match lookupA d k with
    | some blob =>
      let decompressed :=
        if cfg.compression_enabled then decompress dec blob md.algorithm md.original_size
        else blob
      let recompressed :=
        if cfg.compression_enabled then compress_with_algo enc decompressed new_algo
        else decompressed
      ({ md with
          tier := new_tier
          algorithm := new_algo
          compressed_size := recompressed.length },
        insertA strLtb d k recompressed)
    | none => (md, d)
  else (md, d)

/-- The full metadata pass of `reorganize`: iterate the metadata map in
order, updating each entry and the data map. -/
def reorganize_pass (cfg : DbConfig) (enc : EncodeFn) (dec : DecodeFn)
    (total : Nat) :
    List (String × NodeMetadata) → Smap String Bytes →
      List (String × NodeMetadata) × Smap String Bytes
  | [], d => ([], d)
  | (k, md) :: rest, d =>
    let step := reorg_entry cfg enc dec total k md d
    let tail := reorganize_pass cfg enc dec total rest step.2
    ((k, step.1) :: tail.1, tail.2)

/-- `DigestiveDatabase::reorganize`.  The `old_access_counts` snapshot
of the source is dead code (never read) and is omitted; the saves to
disk change no in-memory state. -/
def reorganize (cfg : DbConfig) (enc : EncodeFn) (dec : DecodeFn)
    (st : DbState) (now : Nat) : DbState :=
  let pass := reorganize_pass cfg enc dec st.total_accesses st.metadata_store st.data_store
  { st with
      metadata_store := pass.1
      data_store := pass.2
      operations_since_reorg := 0
      last_reorg_time := now }

/-- `after_operation`: bump the operation counter, then maybe fire a
reorganization (`check_reorganization_trigger`). -/
def after_operation (cfg : DbConfig) (enc : EncodeFn) (dec : DecodeFn)
    (st : DbState) (now : Nat) : DbState :=
  let st1 := { st with operations_since_reorg := st.operations_since_reorg + 1 }
  if should_reorganize cfg st1 now then reorganize cfg enc dec st1 now else st1

/-- `DigestiveDatabase::flush`: move every buffered entry into the
primary map and reset the buffer. -/
def flush (st : DbState) : DbState :=
  if st.write_buffer.isEmpty then st
  else
    { st with
        data_store := st.write_buffer.foldl (fun acc p => insertA strLtb acc p.1 p.2) st.data_store
        write_buffer := []
        write_buffer_current_size := 0 }

/-- `delete_coldest_data`: collect `(key, access_count)` pairs in map
iteration order (ascending keys), sort them by ascending access count,
and erase the first `max(|items|/10, 1)` from all three maps.  The
source sorts with `std::sort`, whose order on ties is unspecified; it is
modelled as a stable insertion sort, so ties keep the key-ascending
iteration order. -/
def coldest_le (a b : String × Nat) : Prop := a.2 ≤ b.2

instance : DecidableRel coldest_le := fun a b =>
  inferInstanceAs (Decidable (a.2 ≤ b.2))

instance : IsTotal (String × Nat) coldest_le :=
  ⟨fun a b => Nat.le_total a.2 b.2⟩

instance : IsTrans (String × Nat) coldest_le :=
  ⟨fun _ _ _ hab hbc => Nat.le_trans hab hbc⟩

/-- The `(key, access_count)` items of `delete_coldest_data`, in map
iteration order. -/
def coldest_items (st : DbState) : List (String × Nat) :=
  st.metadata_store.map (fun p => (p.1, p.2.access_count))

/-- The items of `delete_coldest_data` sorted by ascending access
count (the modelled `std::sort`). -/
def coldest_sorted (st : DbState) : List (String × Nat) :=
  List.insertionSort coldest_le (coldest_items st)

/-- `max(items.size() / 10, 1)`: how many entries eviction deletes. -/
def coldest_count (st : DbState) : Nat :=
  max ((coldest_items st).length / 10) 1

/-- The keys `delete_coldest_data` deletes: the first
`max(|items|/10, 1)` of the items sorted by ascending access count. -/
def coldest_victims (st : DbState) : List String :=
  ((coldest_sorted st).take (coldest_count st)).map Prod.fst

/-- `DigestiveDatabase::delete_coldest_data` (the saves to disk change
no in-memory state). -/
def delete_coldest_data (st : DbState) : DbState :=
  let victims := coldest_victims st
  { st with
      data_store := victims.foldl eraseA st.data_store
      metadata_store := victims.foldl eraseA st.metadata_store
      write_buffer := victims.foldl eraseA st.write_buffer }

/-- `check_size_limit`: when the on-disk footprint exceeds the limit,
evict if deletion is allowed, otherwise only warn. -/
def check_size_limit (cfg : DbConfig) (st : DbState) : DbState :=
  if cfg.max_size_bytes < st.disk_size then
    if cfg.allow_deletion then delete_coldest_data st else st
  else st

/-- `DigestiveDatabase::insert_binary`.  New data starts at the coldest
tier; under lazy persistence the blob goes to the write buffer (flushing
when the buffer limit is reached), otherwise straight to the data map;
the metadata record is installed, then `check_size_limit` and
`after_operation` run. -/
def insert_binary (cfg : DbConfig) (enc : EncodeFn) (dec : DecodeFn)
    (st : DbState) (k : String) (data : Bytes) (now : Nat) : DbState :=
  let tier : CompressionTier := .TIER_4
  let algo := (cfg.tier_configs (tier_index tier)).algorithm
  let compressed := if cfg.compression_enabled then compress cfg enc data tier else data
  let md : NodeMetadata :=
    { access_count := 0
      last_access := now
      tier := tier
      algorithm := algo
      original_size := data.length
      compressed_size := compressed.length }
  let st1 :=
    if cfg.lazy_persistence then
      let stb :=
        { st with
            write_buffer := insertA strLtb st.write_buffer k compressed
            write_buffer_current_size := st.write_buffer_current_size + compressed.length }
      if cfg.write_buffer_size ≤ stb.write_buffer_current_size then flush stb else stb
    else { st with data_store := insertA strLtb st.data_store k compressed }
  let st2 := { st1 with metadata_store := insertA strLtb st1.metadata_store k md }
  after_operation cfg enc dec (check_size_limit cfg st2) now

/-- `DigestiveDatabase::get_binary`.  Returns `none` when the source
dereferences the `metadata_store_.end()` iterator (a key with a blob but
no metadata record — undefined behaviour in the C++); otherwise
`some (result, state)` where `result` is `none` on a miss.  A miss
returns before `after_operation` runs.  A hit on a buffered key flushes
first, then bumps `access_count`, `last_access` and `total_accesses`,
decompresses with the stored algorithm, and runs `after_operation`. -/
def get_binary (cfg : DbConfig) (enc : EncodeFn) (dec : DecodeFn)
    (st : DbState) (k : String) (now : Nat) : Option (Option Bytes × DbState) :=
  let st0 := if (lookupA st.write_buffer k).isSome then flush st else st
  match lookupA st0.data_store k with
  | none => some (none, st0)
  | some compressed =>
    match lookupA st0.metadata_store k with
    | none => none
    | some md =>
      let md' := { md with access_count := md.access_count + 1, last_access := now }
      let st1 :=
        { st0 with
            metadata_store := insertA strLtb st0.metadata_store k md'
            total_accesses := st0.total_accesses + 1 }
      let result :=
        if cfg.compression_enabled then decompress dec compressed md.algorithm md.original_size
        else compressed
      some (some result, after_operation cfg enc dec st1 now)

/-- `DigestiveDatabase::remove`: erase from data map, metadata map and
write buffer; report whether the *data map* had the key; run the
post-op hook. -/
def remove (cfg : DbConfig) (enc : EncodeFn) (dec : DecodeFn)
    (st : DbState) (k : String) (now : Nat) : Bool × DbState :=
  let found := (lookupA st.data_store k).isSome
  let st1 :=
    { st with
        data_store := eraseA st.data_store k
        metadata_store := eraseA st.metadata_store k
        write_buffer := eraseA st.write_buffer k }
  (found, after_operation cfg enc dec st1 now)

/-- A parsed `metadata.db` record (the fixed-width binary framing of the
stream is abstracted to well-formed records). -/
structure MetadataRec where
  key : String
  access_count : Nat
  last_access : Nat
  tier : CompressionTier
  algorithm : CompressionAlgo
  original_size : Nat
  compressed_size : Nat

/-- A parsed `metadata.db` image: the global-stats header followed by
the records (the `count` header field is the record-list length). -/
structure MetadataImage where
  total_accesses : Nat
  operations_since_reorg : Nat
  last_reorg_time : Nat
  recs : List MetadataRec

/-- The store directory as seen by the load path: each file either
absent or a parsed record stream (`data.db` is a sequence of key/value
records). -/
structure DiskDir where
  data_file : Option (List (String × Bytes))
  metadata_file : Option (MetadataImage)

/-- `load_from_disk`: absent `data.db` leaves the state unchanged;
otherwise every record is installed in the data map. -/
def load_from_disk (st : DbState) (d : DiskDir) : DbState :=
  match d.data_file with
  | none => st
  | some recs =>
    { st with
        data_store := recs.foldl (fun acc p => insertA strLtb acc p.1 p.2) st.data_store }

/-- `load_metadata`: absent `metadata.db` leaves the state unchanged
(so the metadata map stays empty on a fresh open); otherwise the header
counters and every record are installed. -/
def load_metadata (st : DbState) (d : DiskDir) : DbState :=
  match d.metadata_file with
  | none => st
  | some img =>
    { st with
        total_accesses := img.total_accesses
        operations_since_reorg := img.operations_since_reorg
        last_reorg_time := img.last_reorg_time
        metadata_store := img.recs.foldl
          (fun acc r => insertA strLtb acc r.key
            { access_count := r.access_count
              last_access := r.last_access
              tier := r.tier
              algorithm := r.algorithm
              original_size := r.original_size
              compressed_size := r.compressed_size })
          st.metadata_store }

/-- The in-memory state right after the member initializers of the
`DigestiveDatabase` constructor run (before loading). -/
def init_state (now disk : Nat) : DbState :=
  { total_accesses := 0
    operations_since_reorg := 0
    last_reorg_time := now
    data_store := []
    metadata_store := []
    write_buffer := []
    write_buffer_current_size := 0
    disk_size := disk }

/-- The `DigestiveDatabase` constructor's load sequence:
`load_from_disk()` then `load_metadata()`. -/
def open_db (d : DiskDir) (now disk : Nat) : DbState :=
  load_metadata (load_from_disk (init_state now disk) d) d

/-- Per-chunk metadata (`struct ChunkMetadata`); `heat` is a `double`
in the source, modelled as an exact rational. -/
structure ChunkMetadata where
  chunk_id : Nat
  heat : ℚ
  compressed_size : Nat
  original_size : Nat
  file_offset : Nat
  tier : Nat
  last_access : Nat
deriving DecidableEq

/-- Per-file metadata (`struct ChunkedFileMetadata`); `chunks` models
the `std::map<uint32_t, ChunkMetadata>`. -/
structure ChunkedFileMetadata where
  key : String
  total_size : Nat
  chunk_size : Nat
  num_chunks : Nat
  chunks : Smap Nat ChunkMetadata
deriving DecidableEq

/-- On-disk chunk files.  A chunk file is identified by its owning key
and chunk id; the path string computed by `get_chunk_path` determines
exactly this pair for the ids the source can actually name (below
1000), so the filesystem is modelled as a map keyed by the pair.  Later
writes shadow earlier ones. -/
abbrev ChunkFiles := List ((String × Nat) × Bytes)

/-- Write a chunk file (shadowing model of the filesystem). -/
def fsWrite (files : ChunkFiles) (fid : String × Nat) (v : Bytes) : ChunkFiles :=
  (fid, v) :: files

/-- Read a chunk file: first (most recent) write wins. -/
def fsRead : ChunkFiles → (String × Nat) → Option Bytes
  | [], _ => none
  | (fid', v) :: fs, fid => if fid' = fid then some v else fsRead fs fid

/-- The state of a `ChunkingEngine`. -/
structure ChunkingEngine where
  chunks_dir : String
  default_chunk_size : Nat
  file_metadata : Smap String ChunkedFileMetadata
  disk_files : ChunkFiles
deriving DecidableEq

/-- An upper bound on `std::string::max_size()`: the constructor
`std::string(count, c)` throws `length_error` for counts beyond it.
Any bound strictly below `2^64 - 2` gives the same verdicts here. -/
def string_max_size : Nat := 2 ^ 62

/-- `ChunkingEngine::get_chunk_path`: `<dir>/<key>/chunk_NNN.bin` where
the pad width is computed as `3 - to_string(id).length()` in `size_t`
arithmetic — which underflows for ids of four or more digits, making
the `std::string` fill constructor throw (modelled as `none`). -/
def get_chunk_path (chunks_dir key : String) (chunk_id : Nat) : Option String :=
  let pad := cpp_size_t_sub 3 (toString chunk_id).length
  if pad ≤ string_max_size then
    some (chunks_dir ++ "/" ++ key ++ "/chunk_" ++
      String.mk (List.replicate pad (Char.ofNat 48)) ++ toString chunk_id ++ ".bin")
  else none

/-- The loop of `insert_chunked` over chunk ids `i, i+1, …, i+n-1`:
slice the chunk, compress it at tier 4, write the chunk file, and build
its metadata.  `none` models the `length_error` escaping when
`get_chunk_path` cannot build a name. -/
def insert_chunk_loop (chunks_dir key : String) (data : Bytes) (c : Nat)
    (compress_fn : Bytes → Nat → Bytes) :
    Nat → Nat → ChunkFiles → Option (ChunkFiles × Smap Nat ChunkMetadata)
  | _, 0, files => some (files, [])
  | i, n + 1, files =>
    let offset := i * c
    let chunk_data_size := min c (data.length - offset)
    let chunk_data := (data.drop offset).take chunk_data_size
    let compressed := compress_fn chunk_data 4
    match get_chunk_path chunks_dir key i with
    | none => none
    | some _ =>
      let files1 := fsWrite files (key, i) compressed
      let meta : ChunkMetadata :=
        { chunk_id := i
          heat := 1 / 10
          compressed_size := compressed.length
          original_size := chunk_data_size
          file_offset := 0
          tier := 4
          last_access := 0 }
      match insert_chunk_loop chunks_dir key data c compress_fn (i + 1) n files1 with
      | none => none
      | some (files2, metas) => some (files2, (i, meta) :: metas)

/-- `ChunkingEngine::insert_chunked`: split into
`⌈|data| / chunk_size⌉` chunks, write each, then install the file
metadata in the index (`save_metadata` changes no in-memory state).
`none` models the uncaught `length_error` (in which case the index is
not updated; the partially written chunk files are not tracked). -/
def insert_chunked (eng : ChunkingEngine) (key : String) (data : Bytes)
    (compress_fn : Bytes → Nat → Bytes) : Option ChunkingEngine :=
  let c := eng.default_chunk_size
  let num_chunks := (data.length + c - 1) / c
  match insert_chunk_loop eng.chunks_dir key data c compress_fn 0 num_chunks
      eng.disk_files with
  | none => none
  | some (files, metas) =>
    some { eng with
        disk_files := files
        file_metadata := insertA strLtb eng.file_metadata key
          { key := key
            total_size := data.length
            chunk_size := c
            num_chunks := num_chunks
            chunks := metas } }

/-- `ifstream::read(buf, n)` on a possibly shorter file: the first `n`
bytes, the rest of the zero-initialized buffer untouched. -/
def read_n_bytes (l : Bytes) (n : Nat) : Bytes :=
  l.take n ++ List.replicate (n - l.length) 0

/-- The loop of `get_chunk_range` over ids `i, …, i+n-1`: a missing
chunk-metadata entry or an unreadable chunk file is skipped
(`continue`), otherwise the chunk is read, decompressed at its current
tier with its original size, appended, and its heat/last-access
bumped.  `none` models an escaping `length_error` from
`get_chunk_path`. -/
def read_chunk_loop (files : ChunkFiles) (chunks_dir key : String)
    (decompress_fn : Bytes → Nat → Nat → Bytes) (now : Nat) :
    Nat → Nat → Smap Nat ChunkMetadata → Option (Bytes × Smap Nat ChunkMetadata)
  | _, 0, chunks => some ([], chunks)
  | i, n + 1, chunks =>
    match lookupA chunks i with
    | none => read_chunk_loop files chunks_dir key decompress_fn now (i + 1) n chunks
    | some cm =>
      match get_chunk_path chunks_dir key i with
      | none => none
      | some _ =>
        match fsRead files (key, i) with
        | none => read_chunk_loop files chunks_dir key decompress_fn now (i + 1) n chunks
        | some fileBytes =>
          let compressed := read_n_bytes fileBytes cm.compressed_size
          let decompressed := decompress_fn compressed cm.tier cm.original_size
          let cm' := { cm with heat := min 1 (cm.heat + 1 / 10), last_access := now }
          match read_chunk_loop files chunks_dir key decompress_fn now (i + 1) n
              (insertA natLtb chunks i cm') with
          | none => none
          | some (rest, chunks') => some (decompressed ++ rest, chunks')

/-- `ChunkingEngine::get_chunk_range`: `some (none, _)` is an absent
result (unknown key, or a start/end at or past `num_chunks`); when the
range check passes, the chunks `start … end` are read and concatenated.
The outer `none` models an escaping exception. -/
def get_chunk_range (eng : ChunkingEngine) (key : String)
    (start_chunk end_chunk : Nat)
    (decompress_fn : Bytes → Nat → Nat → Bytes) (now : Nat) :
    Option (Option Bytes × ChunkingEngine) :=
  match lookupA eng.file_metadata key with
  | none => some (none, eng)
  | some fm =>
    if fm.num_chunks ≤ start_chunk ∨ fm.num_chunks ≤ end_chunk then
      some (none, eng)
    else
      match read_chunk_loop eng.disk_files eng.chunks_dir key decompress_fn now
          start_chunk (end_chunk + 1 - start_chunk) fm.chunks with
      | none => none
      | some (result, chunks') =>
        some (some result,
          { eng with
              file_metadata := insertA strLtb eng.file_metadata key
                { fm with chunks := chunks' } })

/-- The metadata record `insert_binary` installs. -/
def inserted_md (cfg : DbConfig) (enc : EncodeFn) (data : Bytes) (now : Nat) :
    NodeMetadata :=
  { access_count := 0
    last_access := now
    tier := .TIER_4
    algorithm := (cfg.tier_configs (tier_index .TIER_4)).algorithm
    original_size := data.length
    compressed_size :=
      (if cfg.compression_enabled then compress cfg enc data .TIER_4 else data).length }

/-- The byte slice that `insert_chunked` extracts for chunk `j` of
`data` at chunk size `c`. -/
def chunkSlice (data : Bytes) (c j : Nat) : Bytes :=
  (data.drop (j * c)).take (min c (data.length - j * c))

/-- The concatenation the read loop produces over chunks
`i, …, i+n-1`: each chunk's stored bytes decoded at tier 4 with its
original size. -/
def read_concat (df : Bytes → Nat → Nat → Bytes) (cf : Bytes → Nat → Bytes)
    (data : Bytes) (c : Nat) : Nat → Nat → Bytes
  | _, 0 => []
  | i, n + 1 =>
    df (cf (chunkSlice data c i) 4) 4 (min c (data.length - i * c)) ++
      read_concat df cf data c (i + 1) n

/-- Modelled from the spec: the eviction ordering of section 4.3 —
ascending `access_count`, ties by `last_access` ascending, then by key
lexicographically.  This follows the spec's words and exists only to be
compared with the source's ordering (which consults `access_count`
alone). -/
def spec_evict_le (a b : String × Nat × Nat) : Prop :=
  a.2.1 < b.2.1 ∨ (a.2.1 = b.2.1 ∧
    (a.2.2 < b.2.2 ∨ (a.2.2 = b.2.2 ∧ (strLtb a.1 b.1 = true ∨ a.1 = b.1))))

instance : DecidableRel spec_evict_le := fun a b => by
  unfold spec_evict_le
  infer_instance

/-- Modelled from the spec: the keys the spec says eviction removes —
the first `max(1, |keys|/10)` in the section 4.3 ordering. -/
def spec_coldest_victims (st : DbState) : List String :=
  let items := st.metadata_store.map (fun p => (p.1, p.2.access_count, p.2.last_access))
  ((List.insertionSort spec_evict_le items).take (max (items.length / 10) 1)).map
    Prod.fst

/-! ### Concrete instantiations used to evaluate the model -/

/-- Identity instantiation of the abstract encoder. -/
def enc_id : EncodeFn := fun _ b => b

/-- Identity instantiation of the abstract decoder. -/
def dec_id : DecodeFn := fun _ b _ => b

/-- Identity per-chunk compression callback. -/
def chunk_enc_id : Bytes → Nat → Bytes := fun b _ => b

/-- Identity per-chunk decompression callback. -/
def chunk_dec_id : Bytes → Nat → Nat → Bytes := fun b _ _ => b

/-- A tier table assigning `ZSTD_MAX` everywhere, no custom hooks. -/
def tiers_zstd : Fin 5 → TierConfig := fun _ => ⟨.ZSTD_MAX, none, none, false⟩

/-- Lazy-persistence configuration, MANUAL reorganization, compression
disabled. -/
def cfg_lazy_off : DbConfig :=
  ⟨false, 100000, false, tiers_zstd, .MANUAL, 100, 300, 0, true, 1000, false⟩

/-- Eager-persistence configuration, MANUAL reorganization, compression
enabled. -/
def cfg_eager_on : DbConfig :=
  ⟨false, 100000, true, tiers_zstd, .MANUAL, 100, 300, 0, false, 1000, false⟩

/-- Eager-persistence configuration reorganizing after every
operation. -/
def cfg_every_op : DbConfig :=
  ⟨false, 100000, false, tiers_zstd, .EVERY_N_OPS, 1, 300, 0, false, 1000, false⟩

/-- A cold metadata record with the given access count and last-access
time. -/
def md_sample (count la : Nat) : NodeMetadata :=
  ⟨count, la, .TIER_4, .ZSTD_MAX, 1, 1⟩

/-- A state with a hot key `h` and a cold key `t`. -/
def st_two_keys : DbState :=
  ⟨5, 0, 0, [("h", [9]), ("t", [7])], [("h", md_sample 5 0), ("t", md_sample 0 0)],
    [], 0, 0⟩

/-- A state with two keys tied on `access_count` but with different
`last_access` stamps (`a` more recent than `b`). -/
def st_tied : DbState :=
  ⟨0, 0, 0, [("a", [1]), ("b", [2])], [("a", md_sample 0 100), ("b", md_sample 0 50)],
    [], 0, 0⟩

/-- A store directory holding a `data.db` image with one key and no
`metadata.db`. -/
def dir_no_meta : DiskDir := ⟨some [("k", [4])], none⟩

/-- A fresh chunking engine with one-byte chunks. -/
def eng_tiny : ChunkingEngine := ⟨"chunks", 1, [], []⟩

/-- Placeholder engine used as the default of `Option.getD`. -/
def eng_dummy : ChunkingEngine := ⟨"", 0, [], []⟩

/-! ### Helper lemmas about the embedded operations -/

section MapLemmas

variable {κ : Type} {α : Type} [DecidableEq κ] (ltk : κ → κ → Bool)

theorem lookupA_insertA_self (m : Smap κ α) (k : κ) (v : α) :
    lookupA (insertA ltk m k v) k = some v := by
  induction m with
  | nil => simp [insertA, lookupA]
  | cons p m ih =>
    obtain ⟨k', v'⟩ := p
    by_cases h1 : ltk k k' = true
    · simp [insertA, lookupA, h1]
    · by_cases h2 : k = k'
      · subst h2
        simp [insertA, lookupA, h1]
      · have h3 : ¬ k' = k := fun h => h2 h.symm
        simp [insertA, lookupA, h1, h2, h3, ih]

theorem lookupA_insertA_ne (m : Smap κ α) (k k' : κ) (v : α) (h : k' ≠ k) :
    lookupA (insertA ltk m k v) k' = lookupA m k' := by
  have h' : ¬ k = k' := fun hh => h hh.symm
  induction m with
  | nil => simp [insertA, lookupA, h']
  | cons p m ih =>
    obtain ⟨k0, v0⟩ := p
    by_cases h1 : ltk k k0 = true
    · simp [insertA, lookupA, h1, h']
    · by_cases h2 : k = k0
      · subst h2
        simp [insertA, lookupA, h1, h']
      · simp [insertA, lookupA, h1, h2, ih]

theorem lookupA_eraseA_self (m : Smap κ α) (k : κ) :
    lookupA (eraseA m k) k = none := by
  induction m with
  | nil => simp [eraseA, lookupA]
  | cons p m ih =>
    obtain ⟨k0, v0⟩ := p
    by_cases h : k0 = k
    · simpa [eraseA, h] using ih
    · simpa [eraseA, lookupA, h] using ih

theorem lookupA_eraseA_ne (m : Smap κ α) (k k' : κ) (h : k' ≠ k) :
    lookupA (eraseA m k) k' = lookupA m k' := by
  induction m with
  | nil => simp [eraseA]
  | cons p m ih =>
    obtain ⟨k0, v0⟩ := p
    by_cases h0 : k0 = k
    · subst h0
      have h1 : ¬ k0 = k' := fun hh => h hh.symm
      simpa [eraseA, lookupA, h1] using ih
    · by_cases h1 : k0 = k'
      · simp [eraseA, lookupA, h0, h1, h]
      · simp [eraseA, lookupA, h0, h1, ih]

theorem mem_insertA_of (m : Smap κ α) (k : κ) (v : α)
    (p : κ × α) (hp : p ∈ insertA ltk m k v) : p = (k, v) ∨ p ∈ m := by
  induction m with
  | nil => simpa [insertA] using hp
  | cons q m ih =>
    obtain ⟨k0, v0⟩ := q
    by_cases h1 : ltk k k0 = true
    · simp only [insertA, if_pos h1] at hp
      exact List.mem_cons.mp hp
    · by_cases h2 : k = k0
      · simp only [insertA, if_neg h1, if_pos h2] at hp
        rcases List.mem_cons.mp hp with h | h
        · exact Or.inl h
        · exact Or.inr (List.mem_cons_of_mem _ h)
      · simp only [insertA, if_neg h1, if_neg h2] at hp
        rcases List.mem_cons.mp hp with h | h
        · exact Or.inr (h ▸ List.mem_cons_self _ _)
        · rcases ih h with h' | h'
          · exact Or.inl h'
          · exact Or.inr (List.mem_cons_of_mem _ h')

theorem mem_eraseA_of (m : Smap κ α) (k : κ)
    (p : κ × α) (hp : p ∈ eraseA m k) : p ∈ m := by
  induction m with
  | nil => simp [eraseA] at hp
  | cons q m ih =>
    obtain ⟨k0, v0⟩ := q
    by_cases h : k0 = k
    · simp only [eraseA, if_pos h] at hp
      exact List.mem_cons_of_mem _ (ih hp)
    · simp only [eraseA, if_neg h] at hp
      rcases List.mem_cons.mp hp with h' | h'
      · exact h' ▸ List.mem_cons_self _ _
      · exact List.mem_cons_of_mem _ (ih h')

theorem wfMap_insertA
    (htrans : ∀ a b c : κ, ltk a b = true → ltk b c = true → ltk a c = true)
    (hconn : ∀ a b : κ, ¬ ltk a b = true → a ≠ b → ltk b a = true)
    (m : Smap κ α) (k : κ) (v : α) (hm : WfMap ltk m) :
    WfMap ltk (insertA ltk m k v) := by
  induction m with
  | nil => simp [insertA, WfMap]
  | cons p m ih =>
    obtain ⟨k0, v0⟩ := p
    rw [WfMap, List.pairwise_cons] at hm
    obtain ⟨h0, hm⟩ := hm
    by_cases h1 : ltk k k0 = true
    · rw [WfMap, insertA]
      simp only [if_pos h1]
      refine List.Pairwise.cons ?_ (List.Pairwise.cons h0 hm)
      intro p hp
      rcases List.mem_cons.mp hp with hp | hp
      · rw [hp]; exact h1
      · exact htrans k k0 p.1 h1 (h0 p hp)
    · by_cases h2 : k = k0
      · subst h2
        rw [WfMap, insertA]
        simp only [if_neg h1, if_pos rfl]
        exact List.Pairwise.cons h0 hm
      · have hk0 : ltk k0 k = true := hconn k k0 h1 h2
        rw [WfMap, insertA]
        simp only [if_neg h1, if_neg h2]
        refine List.Pairwise.cons ?_ (ih hm)
        intro p hp
        rcases mem_insertA_of ltk m k v p hp with hp' | hp'
        · rw [hp']; exact hk0
        · exact h0 p hp'

theorem wfMap_eraseA (m : Smap κ α) (k : κ) (hm : WfMap ltk m) :
    WfMap ltk (eraseA m k) := by
  induction m with
  | nil => simpa [eraseA] using hm
  | cons p m ih =>
    obtain ⟨k0, v0⟩ := p
    rw [WfMap, List.pairwise_cons] at hm
    obtain ⟨h0, hm⟩ := hm
    by_cases h : k0 = k
    · rw [eraseA, if_pos h]
      exact ih hm
    · rw [eraseA, if_neg h]
      refine List.Pairwise.cons ?_ (ih hm)
      intro p hp
      exact h0 p (mem_eraseA_of m k p hp)

theorem lookupA_foldl_insertA_frame (l : List (κ × α)) (d : Smap κ α) (k : κ)
    (h : ∀ p ∈ l, p.1 ≠ k) :
    lookupA (l.foldl (fun acc p => insertA ltk acc p.1 p.2) d) k = lookupA d k := by
  induction l generalizing d with
  | nil => rfl
  | cons p l ih =>
    have hp : p.1 ≠ k := h p (List.mem_cons_self p l)
    rw [List.foldl_cons, ih _ (fun q hq => h q (List.mem_cons_of_mem p hq)),
      lookupA_insertA_ne ltk d p.1 k p.2 (fun hh => hp hh.symm)]

theorem lookupA_foldl_insertA_hit
    (hasym : ∀ a b : κ, ltk a b = true → b ≠ a)
    (l : List (κ × α)) (d : Smap κ α) (k : κ) (v : α)
    (hl : WfMap ltk l) (hk : lookupA l k = some v) :
    lookupA (l.foldl (fun acc p => insertA ltk acc p.1 p.2) d) k = some v := by
  induction l generalizing d with
  | nil => simp [lookupA] at hk
  | cons p l ih =>
    obtain ⟨k0, v0⟩ := p
    rw [WfMap, List.pairwise_cons] at hl
    obtain ⟨h0, hl⟩ := hl
    by_cases h : k0 = k
    · subst h
      rw [lookupA, if_pos rfl] at hk
      have hv : v0 = v := by injection hk
      subst hv
      rw [List.foldl_cons]
      rw [lookupA_foldl_insertA_frame ltk l _ k0
        (fun q hq => hasym k0 q.1 (h0 q hq))]
      exact lookupA_insertA_self ltk d k0 v0
    · rw [lookupA, if_neg h] at hk
      rw [List.foldl_cons]
      exact ih _ hl hk

theorem lookupA_foldl_eraseA_of_none (vs : List κ) (m : Smap κ α) (k : κ)
    (h : lookupA m k = none) : lookupA (vs.foldl eraseA m) k = none := by
  induction vs generalizing m with
  | nil => exact h
  | cons v vs ih =>
    rw [List.foldl_cons]
    apply ih
    by_cases hv : k = v
    · subst hv; exact lookupA_eraseA_self m k
    · rw [lookupA_eraseA_ne m v k hv]; exact h

theorem lookupA_foldl_eraseA_mem (vs : List κ) (m : Smap κ α) (k : κ)
    (h : k ∈ vs) : lookupA (vs.foldl eraseA m) k = none := by
  induction vs generalizing m with
  | nil => cases h
  | cons v vs ih =>
    rcases List.mem_cons.mp h with h | h
    · subst h
      rw [List.foldl_cons]
      by_cases hv : k ∈ vs
      · exact ih _ hv
      · exact lookupA_foldl_eraseA_of_none vs _ k (lookupA_eraseA_self m k)
    · rw [List.foldl_cons]; exact ih _ h

theorem lookupA_foldl_eraseA_not_mem (vs : List κ) (m : Smap κ α) (k : κ)
    (h : k ∉ vs) : lookupA (vs.foldl eraseA m) k = lookupA m k := by
  induction vs generalizing m with
  | nil => rfl
  | cons v vs ih =>
    rw [List.foldl_cons, ih _ (fun hh => h (List.mem_cons_of_mem v hh)),
      lookupA_eraseA_ne m v k (fun hh => h (hh ▸ List.mem_cons_self v vs))]

end MapLemmas

/-! ### Laws of the key comparisons -/

theorem char_eq_of_toNat_eq {a b : Char} (h : a.toNat = b.toNat) : a = b := by
  apply Char.ext
  apply UInt32.toNat.inj
  exact h

theorem strLt_irrefl (l : List Char) : strLt l l = false := by
  induction l with
  | nil => rfl
  | cons a as ih => simp [strLt, ih]

theorem strLt_trans : ∀ a b c : List Char,
    strLt a b = true → strLt b c = true → strLt a c = true
  | [], [], _ => fun h _ => by cases h
  | [], _ :: _, [] => fun _ h => by cases h
  | [], _ :: _, _ :: _ => fun _ _ => rfl
  | _ :: _, [], _ => fun h _ => by cases h
  | _ :: _, _ :: _, [] => fun _ h => by cases h
  | a :: as, b :: bs, c :: cs => fun h1 h2 => by
    rw [strLt] at h1 h2 ⊢
    by_cases hab : a.toNat < b.toNat
    · by_cases hbc : b.toNat < c.toNat
      · simp [show a.toNat < c.toNat by omega]
      · by_cases hcb : c.toNat < b.toNat
        · simp [hbc, hcb] at h2
        · simp [show a.toNat < c.toNat by omega]
    · by_cases hba : b.toNat < a.toNat
      · simp [hab, hba] at h1
      · by_cases hbc : b.toNat < c.toNat
        · simp [show a.toNat < c.toNat by omega]
        · by_cases hcb : c.toNat < b.toNat
          · simp [hbc, hcb] at h2
          · have hac : ¬ a.toNat < c.toNat := by omega
            have hca : ¬ c.toNat < a.toNat := by omega
            simp only [hab, hba, if_neg, if_false] at h1
            simp only [hbc, hcb, if_neg, if_false] at h2
            simp only [hac, hca, if_neg, if_false]
            exact strLt_trans as bs cs h1 h2

theorem strLt_conn : ∀ a b : List Char,
    ¬ strLt a b = true → a ≠ b → strLt b a = true
  | [], [] => fun _ h => absurd rfl h
  | [], _ :: _ => fun h _ => absurd rfl h
  | _ :: _, [] => fun _ _ => rfl
  | a :: as, b :: bs => fun h hne => by
    rw [strLt] at h ⊢
    by_cases hab : a.toNat < b.toNat
    · simp [hab] at h
    · by_cases hba : b.toNat < a.toNat
      · simp [hba]
      · have hv : a = b := char_eq_of_toNat_eq (by omega)
        subst hv
        simp only [hab, hba, if_neg, if_false] at h ⊢
        refine strLt_conn as bs h (fun hh => hne ?_)
        rw [hh]

theorem strLtb_irrefl (a : String) : strLtb a a = false :=
  strLt_irrefl a.data

theorem strLtb_trans (a b c : String) (h1 : strLtb a b = true)
    (h2 : strLtb b c = true) : strLtb a c = true :=
  strLt_trans a.data b.data c.data h1 h2

theorem strLtb_conn (a b : String) (h : ¬ strLtb a b = true) (hne : a ≠ b) :
    strLtb b a = true := by
  refine strLt_conn a.data b.data h (fun hd => hne ?_)
  cases a
  cases b
  exact congrArg String.mk hd

theorem strLtb_asymm (a b : String) (h : strLtb a b = true) : b ≠ a := by
  intro hb
  subst hb
  rw [strLtb_irrefl] at h
  cases h

theorem natLtb_trans (a b c : Nat) (h1 : natLtb a b = true)
    (h2 : natLtb b c = true) : natLtb a c = true := by
  simp [natLtb] at h1 h2 ⊢
  omega

theorem natLtb_conn (a b : Nat) (h : ¬ natLtb a b = true) (hne : a ≠ b) :
    natLtb b a = true := by
  simp [natLtb] at h ⊢
  omega

theorem natLtb_asymm (a b : Nat) (h : natLtb a b = true) : b ≠ a := by
  simp [natLtb] at h
  omega


theorem lookupA_eq_none_forall {κ α : Type} [DecidableEq κ]
    (m : Smap κ α) (k : κ) (h : lookupA m k = none) :
    ∀ p ∈ m, p.1 ≠ k := by
  induction m with
  | nil => intro p hp; cases hp
  | cons q m ih =>
    obtain ⟨k0, v0⟩ := q
    intro p hp
    by_cases h0 : k0 = k
    · rw [lookupA, if_pos h0] at h; cases h
    · rw [lookupA, if_neg h0] at h
      rcases List.mem_cons.mp hp with hp' | hp'
      · rw [hp']; exact h0
      · exact ih h p hp'

theorem reorg_entry_data_frame (cfg : DbConfig) (enc : EncodeFn) (dec : DecodeFn)
    (total : Nat) (k' : String) (md : NodeMetadata) (d : Smap String Bytes)
    (k : String) (h : k' ≠ k) :
    lookupA (reorg_entry cfg enc dec total k' md d).2 k = lookupA d k := by
  rw [reorg_entry]
  by_cases hc : calculate_tier total md.access_count ≠ md.tier ∨
      (cfg.tier_configs (tier_index (calculate_tier total md.access_count))).algorithm ≠ md.algorithm
  · simp only [if_pos hc]
    cases hl : lookupA d k' with
    | none => simp
    | some blob =>
      simp only
      exact lookupA_insertA_ne strLtb d k' k _ (fun hh => h hh.symm)
  · simp only [if_neg hc]

theorem reorganize_pass_data_frame (cfg : DbConfig) (enc : EncodeFn) (dec : DecodeFn)
    (total : Nat) (k : String) :
    ∀ (entries : List (String × NodeMetadata)) (d : Smap String Bytes),
    (∀ p ∈ entries, p.1 ≠ k) →
    lookupA (reorganize_pass cfg enc dec total entries d).2 k = lookupA d k := by
  intro entries
  induction entries with
  | nil => intro d _; rfl
  | cons p rest ih =>
    intro d h
    obtain ⟨k0, md0⟩ := p
    rw [reorganize_pass]
    simp only
    rw [ih _ (fun q hq => h q (List.mem_cons_of_mem _ hq))]
    exact reorg_entry_data_frame cfg enc dec total k0 md0 d k
      (h (k0, md0) (List.mem_cons_self _ _))

theorem reorganize_pass_meta_none (cfg : DbConfig) (enc : EncodeFn) (dec : DecodeFn)
    (total : Nat) (k : String) :
    ∀ (entries : List (String × NodeMetadata)) (d : Smap String Bytes),
    lookupA entries k = none →
    lookupA (reorganize_pass cfg enc dec total entries d).1 k = none := by
  intro entries
  induction entries with
  | nil => intro d _; rfl
  | cons p rest ih =>
    intro d h
    obtain ⟨k0, md0⟩ := p
    by_cases h0 : k0 = k
    · rw [lookupA, if_pos h0] at h; cases h
    · rw [lookupA, if_neg h0] at h
      rw [reorganize_pass]
      simp only [lookupA, if_neg h0]
      exact ih _ h

theorem reorg_entry_skip (cfg : DbConfig) (enc : EncodeFn) (dec : DecodeFn)
    (total : Nat) (k : String) (md : NodeMetadata) (d : Smap String Bytes)
    (ht : calculate_tier total md.access_count = md.tier)
    (ha : (cfg.tier_configs (tier_index (calculate_tier total md.access_count))).algorithm
      = md.algorithm) :
    reorg_entry cfg enc dec total k md d = (md, d) := by
  rw [reorg_entry]
  have : ¬ (calculate_tier total md.access_count ≠ md.tier ∨
      (cfg.tier_configs (tier_index (calculate_tier total md.access_count))).algorithm
        ≠ md.algorithm) := by
    push_neg
    exact ⟨ht, ha⟩
  simp only [if_neg this]

theorem reorganize_pass_preserve (cfg : DbConfig) (enc : EncodeFn) (dec : DecodeFn)
    (total : Nat) (k : String) (md : NodeMetadata)
    (ht : calculate_tier total md.access_count = md.tier)
    (ha : (cfg.tier_configs (tier_index (calculate_tier total md.access_count))).algorithm
      = md.algorithm) :
    ∀ (entries : List (String × NodeMetadata)) (d : Smap String Bytes),
    WfMap strLtb entries → lookupA entries k = some md →
    lookupA (reorganize_pass cfg enc dec total entries d).1 k = some md ∧
    lookupA (reorganize_pass cfg enc dec total entries d).2 k = lookupA d k := by
  intro entries
  induction entries with
  | nil => intro d _ h; cases h
  | cons p rest ih =>
    intro d hwf h
    obtain ⟨k0, md0⟩ := p
    rw [WfMap, List.pairwise_cons] at hwf
    obtain ⟨h0, hwf⟩ := hwf
    by_cases hk : k0 = k
    · subst hk
      rw [lookupA, if_pos rfl] at h
      have hmd : md0 = md := by injection h
      subst hmd
      rw [reorganize_pass]
      simp only
      rw [reorg_entry_skip cfg enc dec total k0 md0 d ht ha]
      constructor
      · simp [lookupA]
      · exact reorganize_pass_data_frame cfg enc dec total k0 rest d
          (fun q hq => strLtb_asymm k0 q.1 (h0 q hq))
    · rw [lookupA, if_neg hk] at h
      rw [reorganize_pass]
      simp only [lookupA, if_neg hk]
      have hframe := reorg_entry_data_frame cfg enc dec total k0 md0 d k hk
      obtain ⟨ih1, ih2⟩ := ih _ hwf h
      exact ⟨ih1, ih2.trans hframe⟩

theorem calculate_tier_zero (total : Nat) : calculate_tier total 0 = .TIER_4 := by
  rw [calculate_tier]
  by_cases h : total = 0
  · simp [h]
  · simp [h]

/-- Effect of `after_operation` on an entry whose recalculated tier and
algorithm match the stored ones (in particular a freshly inserted
entry): the entry and its blob survive even if a reorganization fires,
and the write buffer is untouched. -/
theorem after_operation_preserve (cfg : DbConfig) (enc : EncodeFn) (dec : DecodeFn)
    (st : DbState) (now : Nat) (k : String) (md : NodeMetadata)
    (hwf : WfMap strLtb st.metadata_store)
    (hmeta : lookupA st.metadata_store k = some md)
    (ht : calculate_tier st.total_accesses md.access_count = md.tier)
    (ha : (cfg.tier_configs
      (tier_index (calculate_tier st.total_accesses md.access_count))).algorithm
      = md.algorithm) :
    lookupA (after_operation cfg enc dec st now).metadata_store k = some md ∧
    lookupA (after_operation cfg enc dec st now).data_store k = lookupA st.data_store k ∧
    (after_operation cfg enc dec st now).write_buffer = st.write_buffer := by
  rw [after_operation]
  by_cases hr : should_reorganize cfg
      { st with operations_since_reorg := st.operations_since_reorg + 1 } now
  · rw [if_pos hr]
    unfold reorganize
    exact ⟨(reorganize_pass_preserve cfg enc dec st.total_accesses k md ht ha
        st.metadata_store st.data_store hwf hmeta).1,
      (reorganize_pass_preserve cfg enc dec st.total_accesses k md ht ha
        st.metadata_store st.data_store hwf hmeta).2, rfl⟩
  · rw [if_neg hr]
    exact ⟨hmeta, rfl, rfl⟩

/-- Effect of `after_operation` on a key absent from the metadata map:
it stays absent, and its data-map binding is untouched. -/
theorem after_operation_absent (cfg : DbConfig) (enc : EncodeFn) (dec : DecodeFn)
    (st : DbState) (now : Nat) (k : String)
    (hmeta : lookupA st.metadata_store k = none) :
    lookupA (after_operation cfg enc dec st now).metadata_store k = none ∧
    lookupA (after_operation cfg enc dec st now).data_store k = lookupA st.data_store k ∧
    (after_operation cfg enc dec st now).write_buffer = st.write_buffer := by
  rw [after_operation]
  by_cases hr : should_reorganize cfg
      { st with operations_since_reorg := st.operations_since_reorg + 1 } now
  · rw [if_pos hr]
    unfold reorganize
    exact ⟨reorganize_pass_meta_none cfg enc dec st.total_accesses k
        st.metadata_store st.data_store hmeta,
      reorganize_pass_data_frame cfg enc dec st.total_accesses k
        st.metadata_store st.data_store
        (lookupA_eq_none_forall st.metadata_store k hmeta), rfl⟩
  · rw [if_neg hr]
    exact ⟨hmeta, rfl, rfl⟩

theorem check_size_limit_no_evict (cfg : DbConfig) (st : DbState)
    (hne : ¬ (cfg.max_size_bytes < st.disk_size ∧ cfg.allow_deletion = true)) :
    check_size_limit cfg st = st := by
  rw [check_size_limit]
  by_cases h1 : cfg.max_size_bytes < st.disk_size
  · rw [if_pos h1]
    have h2 : cfg.allow_deletion = false := by
      cases h : cfg.allow_deletion
      · rfl
      · exact absurd ⟨h1, h⟩ hne
    simp [h2]
  · rw [if_neg h1]

/-- Characterization of `insert_binary` at the inserted key, when the
size check does not evict: the metadata record is installed, the
compressed blob sits in the buffer (lazy) or the data map, and the
write buffer stays well-formed. -/
theorem insert_binary_spec (cfg : DbConfig) (enc : EncodeFn) (dec : DecodeFn)
    (st : DbState) (k : String) (data : Bytes) (now : Nat)
    (hwf : DbWf st)
    (hne : ¬ (cfg.max_size_bytes < st.disk_size ∧ cfg.allow_deletion = true)) :
    lookupA (insert_binary cfg enc dec st k data now).metadata_store k =
      some (inserted_md cfg enc data now) ∧
    (cfg.lazy_persistence = true →
      lookupA (insert_binary cfg enc dec st k data now).write_buffer k =
        some (if cfg.compression_enabled then compress cfg enc data .TIER_4 else data) ∨
      (lookupA (insert_binary cfg enc dec st k data now).data_store k =
        some (if cfg.compression_enabled then compress cfg enc data .TIER_4 else data) ∧
       lookupA (insert_binary cfg enc dec st k data now).write_buffer k = none)) ∧
    (cfg.lazy_persistence = false →
      lookupA (insert_binary cfg enc dec st k data now).data_store k =
        some (if cfg.compression_enabled then compress cfg enc data .TIER_4 else data) ∧
      lookupA (insert_binary cfg enc dec st k data now).write_buffer k =
        lookupA st.write_buffer k) ∧
    WfMap strLtb (insert_binary cfg enc dec st k data now).write_buffer := by
  obtain ⟨hwd, hwm, hwb⟩ := hwf
  rw [insert_binary]
  simp only
  set compressed := if cfg.compression_enabled then compress cfg enc data .TIER_4 else data
    with hcompressed
  set md : NodeMetadata :=
    { access_count := 0
      last_access := now
      tier := .TIER_4
      algorithm := (cfg.tier_configs (tier_index CompressionTier.TIER_4)).algorithm
      original_size := data.length
      compressed_size := compressed.length } with hmd
  have hmd_eq : md = inserted_md cfg enc data now := rfl
  cases hlz : cfg.lazy_persistence with
  | false =>
    simp only [Bool.false_eq_true, if_false]
    set st1 : DbState := { st with data_store := insertA strLtb st.data_store k compressed }
      with hst1
    set st2 : DbState := { st1 with metadata_store := insertA strLtb st1.metadata_store k md }
      with hst2
    have hd2 : st2.disk_size = st.disk_size := rfl
    have hchk : check_size_limit cfg st2 = st2 := by
      apply check_size_limit_no_evict
      rw [hd2]; exact hne
    rw [hchk]
    have hmeta2 : lookupA st2.metadata_store k = some md :=
      lookupA_insertA_self strLtb st1.metadata_store k md
    have hwf2 : WfMap strLtb st2.metadata_store :=
      wfMap_insertA strLtb strLtb_trans strLtb_conn st1.metadata_store k md hwm
    have hpres := after_operation_preserve cfg enc dec st2 now k md hwf2 hmeta2
      (by rw [hmd]; exact calculate_tier_zero st2.total_accesses)
      (by rw [hmd, calculate_tier_zero])
    obtain ⟨hp1, hp2, hp3⟩ := hpres
    refine ⟨hmd_eq ▸ hp1, ?_, ?_, ?_⟩
    · intro h; cases h
    · intro _
      constructor
      · rw [hp2]
        exact lookupA_insertA_self strLtb st.data_store k compressed
      · rw [hp3]
    · rw [hp3]; exact hwb
  | true =>
    simp only [if_true]
    set stb : DbState :=
      { st with
          write_buffer := insertA strLtb st.write_buffer k compressed
          write_buffer_current_size := st.write_buffer_current_size + compressed.length }
      with hstb
    have hwbb : WfMap strLtb stb.write_buffer :=
      wfMap_insertA strLtb strLtb_trans strLtb_conn st.write_buffer k compressed hwb
    have hbk : lookupA stb.write_buffer k = some compressed :=
      lookupA_insertA_self strLtb st.write_buffer k compressed
    by_cases hth : cfg.write_buffer_size ≤ stb.write_buffer_current_size
    · -- the buffer crossed the limit: flush inside the insert
      rw [if_pos hth]
      have hfl : flush stb =
          { stb with
              data_store := stb.write_buffer.foldl (fun acc p => insertA strLtb acc p.1 p.2)
                stb.data_store
              write_buffer := []
              write_buffer_current_size := 0 } := by
        rw [flush]
        have : ¬ stb.write_buffer.isEmpty = true := by
          rw [hstb]
          simp only
          cases hb : st.write_buffer with
          | nil => simp [insertA]
          | cons p m =>
            obtain ⟨k0, v0⟩ := p
            rw [insertA]
            by_cases h1 : strLtb k k0 = true
            · simp [h1]
            · by_cases h2 : k = k0
              · subst h2
                simp [h1]
              · simp [h1, h2]
        simp [this]
      rw [hfl]
      set st1 : DbState :=
        { stb with
            data_store := stb.write_buffer.foldl (fun acc p => insertA strLtb acc p.1 p.2)
              stb.data_store
            write_buffer := []
            write_buffer_current_size := 0 } with hst1
      set st2 : DbState := { st1 with metadata_store := insertA strLtb st1.metadata_store k md }
        with hst2
      have hchk : check_size_limit cfg st2 = st2 := by
        apply check_size_limit_no_evict
        exact hne
      rw [hchk]
      have hmeta2 : lookupA st2.metadata_store k = some md :=
        lookupA_insertA_self strLtb st1.metadata_store k md
      have hwf2 : WfMap strLtb st2.metadata_store :=
      wfMap_insertA strLtb strLtb_trans strLtb_conn st1.metadata_store k md hwm
      have hpres := after_operation_preserve cfg enc dec st2 now k md hwf2 hmeta2
        (by rw [hmd]; exact calculate_tier_zero st2.total_accesses)
        (by rw [hmd, calculate_tier_zero])
      obtain ⟨hp1, hp2, hp3⟩ := hpres
      refine ⟨hmd_eq ▸ hp1, ?_, ?_, ?_⟩
      · intro _
        right
        constructor
        · rw [hp2]
          exact lookupA_foldl_insertA_hit strLtb strLtb_asymm stb.write_buffer
            stb.data_store k compressed hwbb hbk
        · rw [hp3]; rfl
      · intro h; cases h
      · rw [hp3]
        exact List.Pairwise.nil
    · rw [if_neg hth]
      set st2 : DbState := { stb with metadata_store := insertA strLtb stb.metadata_store k md }
        with hst2
      have hchk : check_size_limit cfg st2 = st2 := by
        apply check_size_limit_no_evict
        exact hne
      rw [hchk]
      have hmeta2 : lookupA st2.metadata_store k = some md :=
        lookupA_insertA_self strLtb stb.metadata_store k md
      have hwf2 : WfMap strLtb st2.metadata_store :=
        wfMap_insertA strLtb strLtb_trans strLtb_conn stb.metadata_store k md hwm
      have hpres := after_operation_preserve cfg enc dec st2 now k md hwf2 hmeta2
        (by rw [hmd]; exact calculate_tier_zero st2.total_accesses)
        (by rw [hmd, calculate_tier_zero])
      obtain ⟨hp1, hp2, hp3⟩ := hpres
      refine ⟨hmd_eq ▸ hp1, ?_, ?_, ?_⟩
      · intro _
        left
        rw [hp3]
        exact hbk
      · intro h; cases h
      · rw [hp3]
        exact hwbb

/-- A successful read: if the key has a blob in the data map (with no
buffered entry) or a blob in the (well-formed) write buffer, and a
metadata record exists, `get_binary` returns the decompressed blob. -/
theorem get_binary_hit (cfg : DbConfig) (enc : EncodeFn) (dec : DecodeFn)
    (st : DbState) (k : String) (now : Nat) (blob : Bytes) (md : NodeMetadata)
    (hcase : (lookupA st.write_buffer k = none ∧ lookupA st.data_store k = some blob)
      ∨ (WfMap strLtb st.write_buffer ∧ lookupA st.write_buffer k = some blob))
    (hmeta : lookupA st.metadata_store k = some md) :
    Option.map Prod.fst (get_binary cfg enc dec st k now) =
      some (some (if cfg.compression_enabled then
        decompress dec blob md.algorithm md.original_size else blob)) := by
  rcases hcase with ⟨hb, hd⟩ | ⟨hwfb, hb⟩
  · rw [get_binary]
    simp only [hb, Option.isSome_none, Bool.false_eq_true, if_false, hd, hmeta,
      Option.map_some']
  · have hnonempty : ¬ st.write_buffer.isEmpty = true := by
      cases hwbuf : st.write_buffer with
      | nil => rw [hwbuf] at hb; cases hb
      | cons p m => simp
    have hfd : lookupA (flush st).data_store k = some blob := by
      rw [flush, if_neg hnonempty]
      exact lookupA_foldl_insertA_hit strLtb strLtb_asymm st.write_buffer
        st.data_store k blob hwfb hb
    have hfm : lookupA (flush st).metadata_store k = some md := by
      rw [flush, if_neg hnonempty]
      exact hmeta
    rw [get_binary]
    simp only [hb, Option.isSome_some, if_true, hfd, hfm, Option.map_some']

/-- C10 (amended): a `get_binary` on a key absent from both the data
map and the write buffer returns an absent result and leaves the state
completely unchanged — in particular `ops_since_reorg` does *not*
increment, because the miss path returns before `after_operation`
runs. -/
theorem c10_miss_leaves_state_unchanged (cfg : DbConfig) (enc : EncodeFn)
    (dec : DecodeFn) (st : DbState) (k : String) (now : Nat)
    (hb : lookupA st.write_buffer k = none)
    (hd : lookupA st.data_store k = none) :
    get_binary cfg enc dec st k now = some (none, st) := by
  rw [get_binary]
  simp only [hb, Option.isSome_none, Bool.false_eq_true, if_false, hd]

/-- Witness for C10's amended theorem at a concrete state. -/
theorem c10_witness :
    get_binary cfg_lazy_off enc_id dec_id st_two_keys "zz" 7 = some (none, st_two_keys) :=
  c10_miss_leaves_state_unchanged cfg_lazy_off enc_id dec_id st_two_keys "zz" 7
    (by decide) (by decide)

/-- Counterexample to C10 as stated: with MANUAL reorganization, a miss
leaves `operations_since_reorg` at 0 — it does not increment to 1,
because `get_binary` returns before `after_operation`. -/
theorem c10_counterexample :
    (get_binary cfg_lazy_off enc_id dec_id st_two_keys "zz" 7).map
      (fun p => (p.1, p.2.operations_since_reorg)) = some (none, 0) ∧
    st_two_keys.operations_since_reorg = 0 := by
  constructor
  · decide
  · decide

/-- C3 (amended): `remove` erases the key from the data map, the
metadata map and the write buffer, but returns whether the key was in
the *data map* (a key living only in the write buffer is erased yet
reported as `false`); an immediately repeated `remove` returns
`false`. -/
theorem c3_remove_erases_and_reports_data_map (cfg : DbConfig) (enc : EncodeFn)
    (dec : DecodeFn) (st : DbState) (k : String) (now now' : Nat) :
    (remove cfg enc dec st k now).1 = (lookupA st.data_store k).isSome ∧
    lookupA (remove cfg enc dec st k now).2.data_store k = none ∧
    lookupA (remove cfg enc dec st k now).2.metadata_store k = none ∧
    lookupA (remove cfg enc dec st k now).2.write_buffer k = none ∧
    (remove cfg enc dec (remove cfg enc dec st k now).2 k now').1 = false := by
  have h1 : lookupA (eraseA st.metadata_store k) k = none :=
    lookupA_eraseA_self st.metadata_store k
  obtain ⟨ha, hb, hc⟩ := after_operation_absent cfg enc dec
    { st with
        data_store := eraseA st.data_store k
        metadata_store := eraseA st.metadata_store k
        write_buffer := eraseA st.write_buffer k } now k h1
  refine ⟨rfl, ?_, ?_, ?_, ?_⟩
  · rw [remove]
    simp only
    rw [hb]
    exact lookupA_eraseA_self st.data_store k
  · exact ha
  · rw [remove]
    simp only
    rw [hc]
    exact lookupA_eraseA_self st.write_buffer k
  · rw [remove, remove]
    simp only
    rw [hb, lookupA_eraseA_self st.data_store k]
    rfl

/-- Counterexample to C3 as stated: under lazy persistence a freshly
inserted key lives only in the write buffer; `remove` erases it but
returns `false`, though a mapping existed. -/
theorem c3_counterexample :
    lookupA (insert_binary cfg_lazy_off enc_id dec_id (init_state 0 0) "k" [1] 0).write_buffer
      "k" = some [1] ∧
    (remove cfg_lazy_off enc_id dec_id
      (insert_binary cfg_lazy_off enc_id dec_id (init_state 0 0) "k" [1] 0) "k" 1).1
      = false := by
  constructor
  · decide
  · decide

/-- C9: the chunk file name is `chunk_NNN.bin` with the id zero-padded
to three digits for ids up to 999, but for id 1000 the pad width
`3 - to_string(id).length()` underflows in `size_t` arithmetic, so the
`std::string` fill constructor throws instead of widening naturally. -/
theorem c9_chunk_path_underflow :
    get_chunk_path "chunks" "k" 7 = some "chunks/k/chunk_007.bin" ∧
    get_chunk_path "chunks" "k" 42 = some "chunks/k/chunk_042.bin" ∧
    get_chunk_path "chunks" "k" 999 = some "chunks/k/chunk_999.bin" ∧
    get_chunk_path "chunks" "k" 1000 = none := by
  refine ⟨?_, ?_, ?_, ?_⟩ <;> decide

/-- C8: opening a directory with a `data.db` image but no `metadata.db`
yields an empty metadata map and a loaded data map, but `get_binary` on
such a key is *not* well-defined: the source dereferences the metadata
map's `end()` iterator (modelled as the `none` outcome), instead of
returning the stored value. -/
theorem c8_missing_metadata_file_read_ub :
    (open_db dir_no_meta 0 0).metadata_store = [] ∧
    lookupA (open_db dir_no_meta 0 0).data_store "k" = some [4] ∧
    get_binary cfg_eager_on enc_id dec_id (open_db dir_no_meta 0 0) "k" 5 = none := by
  refine ⟨?_, ?_, ?_⟩ <;> decide

theorem after_operation_no_reorg (cfg : DbConfig) (enc : EncodeFn) (dec : DecodeFn)
    (st : DbState) (now : Nat)
    (h : should_reorganize cfg
      { st with operations_since_reorg := st.operations_since_reorg + 1 } now = false) :
    after_operation cfg enc dec st now =
      { st with operations_since_reorg := st.operations_since_reorg + 1 } := by
  rw [after_operation, if_neg (by simp [h])]

/-- C5: after `insert_binary(k, b)` (when the size check does not
evict), the metadata record for `k` has tier `TIER_4`, the algorithm
configured for tier 4, `access_count = 0`, `last_access` equal to the
current time, `original_size = |b|`, and `compressed_size` equal to the
byte length of the blob actually stored for `k` (in the data map or the
write buffer). -/
theorem c5_insert_installs_cold_metadata (cfg : DbConfig) (enc : EncodeFn)
    (dec : DecodeFn) (st : DbState) (k : String) (data : Bytes) (now : Nat)
    (hwf : DbWf st)
    (hne : ¬ (cfg.max_size_bytes < st.disk_size ∧ cfg.allow_deletion = true)) :
    ∃ blob,
      (lookupA (insert_binary cfg enc dec st k data now).data_store k = some blob ∨
       lookupA (insert_binary cfg enc dec st k data now).write_buffer k = some blob) ∧
      lookupA (insert_binary cfg enc dec st k data now).metadata_store k =
        some { access_count := 0
               last_access := now
               tier := .TIER_4
               algorithm := (cfg.tier_configs (tier_index .TIER_4)).algorithm
               original_size := data.length
               compressed_size := blob.length } := by
  obtain ⟨hmeta, hlazy, heager, _⟩ := insert_binary_spec cfg enc dec st k data now hwf hne
  refine ⟨if cfg.compression_enabled then compress cfg enc data .TIER_4 else data,
    ?_, hmeta⟩
  cases hlz : cfg.lazy_persistence with
  | true =>
    rcases hlazy hlz with h | ⟨h, _⟩
    · exact Or.inr h
    · exact Or.inl h
  | false =>
    exact Or.inl (heager hlz).1

/-- Witness for C5 at a concrete insert. -/
theorem c5_witness :
    ∃ blob,
      (lookupA (insert_binary cfg_eager_on enc_id dec_id (init_state 3 0) "k" [7, 8]
          5).data_store "k" = some blob ∨
       lookupA (insert_binary cfg_eager_on enc_id dec_id (init_state 3 0) "k" [7, 8]
          5).write_buffer "k" = some blob) ∧
      lookupA (insert_binary cfg_eager_on enc_id dec_id (init_state 3 0) "k" [7, 8]
          5).metadata_store "k" =
        some { access_count := 0
               last_access := 5
               tier := .TIER_4
               algorithm := (cfg_eager_on.tier_configs (tier_index .TIER_4)).algorithm
               original_size := 2
               compressed_size := blob.length } :=
  c5_insert_installs_cold_metadata cfg_eager_on enc_id dec_id (init_state 3 0) "k"
    [7, 8] 5 ⟨List.Pairwise.nil, List.Pairwise.nil, List.Pairwise.nil⟩ (by decide)

/-- C1: an `insert_binary(k, b)` followed immediately by
`get_binary(k)` returns exactly `b`, for lazy persistence on or off,
compression enabled or disabled, and any tier-to-codec assignment,
provided the size check does not evict, no custom compression hook is
installed at tier 4, the codec backend is lossless, and (when lazy
persistence is off) the write buffer holds no stale blob for `k`. -/
theorem c1_insert_then_get_returns_inserted (cfg : DbConfig) (enc : EncodeFn)
    (dec : DecodeFn) (st : DbState) (k : String) (data : Bytes) (now now' : Nat)
    (hwf : DbWf st)
    (hne : ¬ (cfg.max_size_bytes < st.disk_size ∧ cfg.allow_deletion = true))
    (hstale : cfg.lazy_persistence = false → lookupA st.write_buffer k = none)
    (hhook : (cfg.tier_configs (tier_index .TIER_4)).compress_fn = none)
    (hcodec : ∀ a x, decompress_with_algo dec (compress_with_algo enc x a) a
      x.length = x) :
    Option.map Prod.fst
      (get_binary cfg enc dec (insert_binary cfg enc dec st k data now) k now') =
      some (some data) := by
  obtain ⟨hmeta, hlazy, heager, hwfb⟩ := insert_binary_spec cfg enc dec st k data now hwf hne
  have hres : (if cfg.compression_enabled then
      decompress dec (if cfg.compression_enabled then compress cfg enc data .TIER_4 else data)
        (inserted_md cfg enc data now).algorithm
        (inserted_md cfg enc data now).original_size
      else (if cfg.compression_enabled then compress cfg enc data .TIER_4 else data))
      = data := by
    by_cases hc : cfg.compression_enabled = true
    · simp only [hc, if_true]
      have hcompress : compress cfg enc data .TIER_4 =
          compress_with_algo enc data (cfg.tier_configs (tier_index .TIER_4)).algorithm := by
        rw [compress, hhook]
      rw [hcompress]
      exact hcodec (cfg.tier_configs (tier_index .TIER_4)).algorithm data
    · simp only [hc, Bool.false_eq_true, if_false]
  have hhit := get_binary_hit cfg enc dec (insert_binary cfg enc dec st k data now)
    k now' (if cfg.compression_enabled then compress cfg enc data .TIER_4 else data)
    (inserted_md cfg enc data now) ?hcase hmeta
  · rw [hhit, hres]
  · cases hlz : cfg.lazy_persistence with
    | true =>
      rcases hlazy hlz with h | ⟨h1, h2⟩
      · exact Or.inr ⟨hwfb, h⟩
      · exact Or.inl ⟨h2, h1⟩
    | false =>
      obtain ⟨h1, h2⟩ := heager hlz
      exact Or.inl ⟨h2.trans (hstale hlz), h1⟩

/-- Witness for C1 at a concrete configuration and input. -/
theorem c1_witness :
    Option.map Prod.fst
      (get_binary cfg_eager_on enc_id dec_id
        (insert_binary cfg_eager_on enc_id dec_id (init_state 0 0) "k" [1, 2] 3) "k" 4) =
      some (some [1, 2]) :=
  c1_insert_then_get_returns_inserted cfg_eager_on enc_id dec_id (init_state 0 0)
    "k" [1, 2] 3 4 ⟨List.Pairwise.nil, List.Pairwise.nil, List.Pairwise.nil⟩
    (by decide) (fun _ => rfl) rfl (fun a x => by cases a <;> rfl)

/-- C7 (amended): a read that returns data increments the hit key's
`access_count` by exactly one, sets its `last_access` to the current
time (which is at least the pre-call value when the clock is
monotone), and increments the global `total_accesses` by one; no other
key's metadata changes *provided the post-op hook does not trigger a
reorganization* (a triggered reorganization may rewrite the tier,
algorithm and compressed size of any key). -/
theorem c7_successful_get_updates_metadata (cfg : DbConfig) (enc : EncodeFn)
    (dec : DecodeFn) (st : DbState) (k : String) (now : Nat) (blob : Bytes)
    (md : NodeMetadata)
    (hb : lookupA st.write_buffer k = none)
    (hd : lookupA st.data_store k = some blob)
    (hm : lookupA st.metadata_store k = some md)
    (hclk : md.last_access ≤ now)
    (hnr : should_reorganize cfg
      { st with
          metadata_store := insertA strLtb st.metadata_store k
            { md with access_count := md.access_count + 1, last_access := now }
          total_accesses := st.total_accesses + 1
          operations_since_reorg := st.operations_since_reorg + 1 } now = false) :
    ∃ st', get_binary cfg enc dec st k now =
        some (some (if cfg.compression_enabled then
          decompress dec blob md.algorithm md.original_size else blob), st') ∧
      lookupA st'.metadata_store k =
        some { md with access_count := md.access_count + 1, last_access := now } ∧
      md.last_access ≤ now ∧
      st'.total_accesses = st.total_accesses + 1 ∧
      (∀ k', k' ≠ k → lookupA st'.metadata_store k' = lookupA st.metadata_store k') := by
  refine ⟨{ st with
      metadata_store := insertA strLtb st.metadata_store k
        { md with access_count := md.access_count + 1, last_access := now }
      total_accesses := st.total_accesses + 1
      operations_since_reorg := st.operations_since_reorg + 1 }, ?_, ?_, hclk, rfl, ?_⟩
  · rw [get_binary]
    simp only [hb, Option.isSome_none, Bool.false_eq_true, if_false, hd, hm]
    rw [after_operation_no_reorg cfg enc dec _ now (by exact hnr)]
  · exact lookupA_insertA_self strLtb st.metadata_store k _
  · intro k' hk'
    exact lookupA_insertA_ne strLtb st.metadata_store k k' _ hk'

/-- Witness for C7's amended theorem at a concrete MANUAL-strategy
state. -/
theorem c7_witness :
    ∃ st', get_binary cfg_lazy_off enc_id dec_id st_two_keys "t" 9 =
        some (some (if cfg_lazy_off.compression_enabled then
          decompress dec_id [7] (md_sample 0 0).algorithm (md_sample 0 0).original_size
          else [7]), st') ∧
      lookupA st'.metadata_store "t" =
        some { md_sample 0 0 with
                access_count := (md_sample 0 0).access_count + 1
                last_access := 9 } ∧
      (md_sample 0 0).last_access ≤ 9 ∧
      st'.total_accesses = st_two_keys.total_accesses + 1 ∧
      (∀ k', k' ≠ "t" →
        lookupA st'.metadata_store k' = lookupA st_two_keys.metadata_store k') :=
  c7_successful_get_updates_metadata cfg_lazy_off enc_id dec_id st_two_keys "t" 9 [7]
    (md_sample 0 0) (by decide) (by decide) (by decide) (by decide) rfl

/-- Counterexample to C7 as stated: with `EVERY_N_OPS` at threshold 1,
a successful read of `t` fires a reorganization that changes the
metadata of the *other* key `h` (its tier moves to `TIER_0`), so "no
other key's metadata changes" fails. -/
theorem c7_counterexample :
    (get_binary cfg_every_op enc_id dec_id st_two_keys "t" 33).map Prod.fst
      = some (some [7]) ∧
    (get_binary cfg_every_op enc_id dec_id st_two_keys "t" 33).map
      (fun p => lookupA p.2.metadata_store "h") ≠ some (some (md_sample 5 0)) := by
  constructor
  · decide
  · decide

/-- C6 (amended): when the store has at least one key, eviction removes
exactly `max(1, ⌊|keys|/10⌋)` entries; every removed entry's
`access_count` is at most every surviving entry's; the removed keys are
erased from all three maps and all other keys keep their bindings.  The
comparator consults only `access_count`, so ties are *not* broken by
`last_access`; in this model of `std::sort` (a stable sort over the
key-ascending iteration order) ties fall to the smaller key. -/
theorem c6_eviction_count_and_minimality (st : DbState)
    (hn : st.metadata_store ≠ []) :
    (coldest_victims st).length = max (st.metadata_store.length / 10) 1 ∧
    (∀ p ∈ (coldest_sorted st).take (coldest_count st),
      ∀ q ∈ (coldest_sorted st).drop (coldest_count st), p.2 ≤ q.2) ∧
    (∀ k ∈ coldest_victims st,
      lookupA (delete_coldest_data st).data_store k = none ∧
      lookupA (delete_coldest_data st).metadata_store k = none ∧
      lookupA (delete_coldest_data st).write_buffer k = none) ∧
    (∀ k, k ∉ coldest_victims st →
      lookupA (delete_coldest_data st).data_store k = lookupA st.data_store k ∧
      lookupA (delete_coldest_data st).metadata_store k = lookupA st.metadata_store k ∧
      lookupA (delete_coldest_data st).write_buffer k = lookupA st.write_buffer k) := by
  have hlen : (coldest_items st).length = st.metadata_store.length := by
    rw [coldest_items, List.length_map]
  have hslen : (coldest_sorted st).length = st.metadata_store.length := by
    rw [coldest_sorted, List.length_insertionSort, hlen]
  refine ⟨?_, ?_, ?_, ?_⟩
  · rw [coldest_victims, List.length_map, List.length_take, hslen, coldest_count, hlen]
    have h1 : 1 ≤ st.metadata_store.length := by
      cases hmm : st.metadata_store with
      | nil => exact absurd hmm hn
      | cons p m => simp
    have h2 : st.metadata_store.length / 10 ≤ st.metadata_store.length :=
      Nat.div_le_self _ _
    omega
  · have hsorted : List.Sorted coldest_le (coldest_sorted st) :=
      List.sorted_insertionSort coldest_le (coldest_items st)
    have hsplit : List.Pairwise coldest_le
        ((coldest_sorted st).take (coldest_count st) ++
          (coldest_sorted st).drop (coldest_count st)) := by
      rw [List.take_append_drop]
      exact hsorted
    intro p hp q hq
    exact (List.pairwise_append.mp hsplit).2.2 p hp q hq
  · intro k hk
    exact ⟨lookupA_foldl_eraseA_mem (coldest_victims st) st.data_store k hk,
      lookupA_foldl_eraseA_mem (coldest_victims st) st.metadata_store k hk,
      lookupA_foldl_eraseA_mem (coldest_victims st) st.write_buffer k hk⟩
  · intro k hk
    exact ⟨lookupA_foldl_eraseA_not_mem (coldest_victims st) st.data_store k hk,
      lookupA_foldl_eraseA_not_mem (coldest_victims st) st.metadata_store k hk,
      lookupA_foldl_eraseA_not_mem (coldest_victims st) st.write_buffer k hk⟩

/-- Witness for C6's amended theorem at a concrete two-key state. -/
theorem c6_witness :
    (coldest_victims st_tied).length = max (st_tied.metadata_store.length / 10) 1 ∧
    (∀ p ∈ (coldest_sorted st_tied).take (coldest_count st_tied),
      ∀ q ∈ (coldest_sorted st_tied).drop (coldest_count st_tied), p.2 ≤ q.2) ∧
    (∀ k ∈ coldest_victims st_tied,
      lookupA (delete_coldest_data st_tied).data_store k = none ∧
      lookupA (delete_coldest_data st_tied).metadata_store k = none ∧
      lookupA (delete_coldest_data st_tied).write_buffer k = none) ∧
    (∀ k, k ∉ coldest_victims st_tied →
      lookupA (delete_coldest_data st_tied).data_store k =
        lookupA st_tied.data_store k ∧
      lookupA (delete_coldest_data st_tied).metadata_store k =
        lookupA st_tied.metadata_store k ∧
      lookupA (delete_coldest_data st_tied).write_buffer k =
        lookupA st_tied.write_buffer k) :=
  c6_eviction_count_and_minimality st_tied (by decide)

/-- Counterexample to C6 as stated: with two keys tied on
`access_count` but `last_access(a) = 100 > last_access(b) = 50`, the
source evicts `a` (the comparator never consults `last_access`), while
the spec's tie-break (`last_access` ascending) mandates evicting `b`. -/
theorem c6_counterexample :
    coldest_victims st_tied = ["a"] ∧
    spec_coldest_victims st_tied = ["b"] ∧
    lookupA (delete_coldest_data st_tied).metadata_store "a" = none ∧
    lookupA (delete_coldest_data st_tied).metadata_store "b" = some (md_sample 0 50) := by
  refine ⟨?_, ?_, ?_, ?_⟩ <;> decide

theorem fsRead_fsWrite_self (files : ChunkFiles) (fid : String × Nat) (v : Bytes) :
    fsRead (fsWrite files fid v) fid = some v := by
  rw [fsWrite, fsRead, if_pos rfl]

theorem fsRead_fsWrite_ne (files : ChunkFiles) (fid fid' : String × Nat) (v : Bytes)
    (h : fid ≠ fid') : fsRead (fsWrite files fid v) fid' = fsRead files fid' := by
  rw [fsWrite, fsRead, if_neg h]

theorem chunkSlice_length (data : Bytes) (c j : Nat) :
    (chunkSlice data c j).length = min c (data.length - j * c) := by
  rw [chunkSlice, List.length_take, List.length_drop]
  omega

theorem chunkSlice_eq_take (data : Bytes) (c j : Nat) :
    chunkSlice data c j = (data.drop (j * c)).take c := by
  rw [chunkSlice]
  apply List.take_eq_take.mpr
  rw [List.length_drop]
  omega

theorem read_n_bytes_full (l : Bytes) : read_n_bytes l l.length = l := by
  rw [read_n_bytes]
  simp

/-- The metadata record `insert_chunked` builds for chunk `j`. -/
theorem insert_chunk_loop_spec (dir key : String) (data : Bytes) (c : Nat)
    (cf : Bytes → Nat → Bytes) :
    ∀ (n i : Nat) (files files' : ChunkFiles) (metas : Smap Nat ChunkMetadata),
    insert_chunk_loop dir key data c cf i n files = some (files', metas) →
    (∀ j, i ≤ j → j < i + n →
      lookupA metas j = some
        { chunk_id := j
          heat := 1 / 10
          compressed_size := (cf (chunkSlice data c j) 4).length
          original_size := min c (data.length - j * c)
          file_offset := 0
          tier := 4
          last_access := 0 } ∧
      fsRead files' (key, j) = some (cf (chunkSlice data c j) 4) ∧
      (get_chunk_path dir key j).isSome = true) ∧
    (∀ fid : String × Nat, (fid.1 = key → fid.2 < i) →
      fsRead files' fid = fsRead files fid) := by
  intro n
  induction n with
  | zero =>
    intro i files files' metas h
    rw [insert_chunk_loop] at h
    obtain ⟨h1, h2⟩ : files = files' ∧ ([] : Smap Nat ChunkMetadata) = metas := by
      have := Option.some.inj h
      exact ⟨congrArg Prod.fst this, congrArg Prod.snd this⟩
    subst h1
    subst h2
    constructor
    · intro j hij hjn
      omega
    · intro fid _
      rfl
  | succ n ih =>
    intro i files files' metas h
    rw [insert_chunk_loop] at h
    cases hp : get_chunk_path dir key i with
    | none => rw [hp] at h; cases h
    | some path =>
      rw [hp] at h
      simp only at h
      cases hrec : insert_chunk_loop dir key data c cf (i + 1) n
          (fsWrite files (key, i)
            (cf ((data.drop (i * c)).take (min c (data.length - i * c))) 4)) with
      | none => rw [hrec] at h; cases h
      | some pr =>
        obtain ⟨files2, metas2⟩ := pr
        rw [hrec] at h
        have hinj := Option.some.inj h
        have hf : files2 = files' := congrArg Prod.fst hinj
        have hm := congrArg Prod.snd hinj
        simp only at hm
        subst hf
        obtain ⟨ihA, ihB⟩ := ih (i + 1) _ files2 metas2 hrec
        constructor
        · intro j hij hjn
          by_cases hji : j = i
          · subst hji
            refine ⟨?_, ?_, ?_⟩
            · rw [← hm, lookupA, if_pos rfl]
              rfl
            · rw [ihB (key, j) (fun _ => Nat.lt_succ_self j)]
              exact fsRead_fsWrite_self files (key, j) _
            · rw [hp]; rfl
          · have hij1 : i + 1 ≤ j := by omega
            obtain ⟨a1, a2, a3⟩ := ihA j hij1 (by omega)
            refine ⟨?_, a2, a3⟩
            rw [← hm, lookupA, if_neg (fun hh => hji hh.symm)]
            exact a1
        · intro fid hfid
          rw [ihB fid (fun hh => Nat.lt_succ_of_lt (hfid hh))]
          apply fsRead_fsWrite_ne
          intro hcontra
          have h1 : fid.1 = key := by rw [← hcontra]
          have h2 : fid.2 = i := by rw [← hcontra]
          have := hfid h1
          omega

/-- The read loop succeeds and returns the decoded concatenation when
every requested chunk has its freshly inserted metadata record and its
chunk file on disk. -/
theorem read_chunk_loop_run (files : ChunkFiles) (dir key : String)
    (df : Bytes → Nat → Nat → Bytes) (now : Nat) (data : Bytes) (c : Nat)
    (cf : Bytes → Nat → Bytes) :
    ∀ (n i : Nat) (chunks : Smap Nat ChunkMetadata),
    (∀ j, i ≤ j → j < i + n →
      lookupA chunks j = some
        { chunk_id := j
          heat := 1 / 10
          compressed_size := (cf (chunkSlice data c j) 4).length
          original_size := min c (data.length - j * c)
          file_offset := 0
          tier := 4
          last_access := 0 } ∧
      fsRead files (key, j) = some (cf (chunkSlice data c j) 4) ∧
      (get_chunk_path dir key j).isSome = true) →
    ∃ chunks', read_chunk_loop files dir key df now i n chunks =
      some (read_concat df cf data c i n, chunks') := by
  intro n
  induction n with
  | zero =>
    intro i chunks _
    exact ⟨chunks, rfl⟩
  | succ n ih =>
    intro i chunks hyp
    obtain ⟨h1, h2, h3⟩ := hyp i (Nat.le_refl i) (by omega)
    rw [read_chunk_loop, h1]
    cases hp : get_chunk_path dir key i with
    | none => rw [hp] at h3; cases h3
    | some path =>
      simp only [h2]
      have hread : read_n_bytes (cf (chunkSlice data c i) 4)
          (cf (chunkSlice data c i) 4).length = cf (chunkSlice data c i) 4 :=
        read_n_bytes_full _
      obtain ⟨chunks', hrec⟩ := ih (i + 1)
        (insertA natLtb chunks i
          { chunk_id := i
            heat := min 1 (1 / 10 + 1 / 10)
            compressed_size := (cf (chunkSlice data c i) 4).length
            original_size := min c (data.length - i * c)
            file_offset := 0
            tier := 4
            last_access := now })
        (fun j hj1 hj2 => by
          obtain ⟨b1, b2, b3⟩ := hyp j (by omega) (by omega)
          refine ⟨?_, b2, b3⟩
          rw [lookupA_insertA_ne natLtb chunks i j _ (by omega)]
          exact b1)
      refine ⟨chunks', ?_⟩
      simp only [hread, hrec]
      rfl

/-- The decoded concatenation equals a contiguous byte range when the
decoder inverts the encoder. -/
theorem read_concat_eq_range (df : Bytes → Nat → Nat → Bytes)
    (cf : Bytes → Nat → Bytes) (data : Bytes) (c : Nat)
    (hdf : ∀ x : Bytes, df (cf x 4) 4 x.length = x) :
    ∀ (n i : Nat), read_concat df cf data c i n = (data.drop (i * c)).take (n * c) := by
  intro n
  induction n with
  | zero => intro i; simp [read_concat]
  | succ n ih =>
    intro i
    rw [read_concat]
    have hsz : min c (data.length - i * c) = (chunkSlice data c i).length :=
      (chunkSlice_length data c i).symm
    rw [hsz, hdf (chunkSlice data c i), ih (i + 1), chunkSlice_eq_take]
    have harith : (i + 1) * c = i * c + c := by ring
    rw [harith, ← List.drop_drop]
    have harith2 : (n + 1) * c = c + n * c := by ring
    rw [harith2, List.take_add]

/-- C2: for a chunked key inserted with plaintext `data` and chunk size
`C`, and `a ≤ b < num_chunks`, `get_chunk_range(k, a, b)` returns
exactly `data[a·C : min((b+1)·C, |data|)]`, when the supplied decoder
inverts the encoder used at insert for the chunk tier and original
size. -/
theorem c2_get_chunk_range_returns_slice (eng : ChunkingEngine) (key : String)
    (data : Bytes) (cf : Bytes → Nat → Bytes) (df : Bytes → Nat → Nat → Bytes)
    (a b now : Nat) (eng' : ChunkingEngine)
    (hins : insert_chunked eng key data cf = some eng')
    (hab : a ≤ b)
    (hb : b < (data.length + eng.default_chunk_size - 1) / eng.default_chunk_size)
    (hdf : ∀ x : Bytes, df (cf x 4) 4 x.length = x) :
    Option.map Prod.fst (get_chunk_range eng' key a b df now) =
      some (some ((data.take (min ((b + 1) * eng.default_chunk_size) data.length)).drop
        (a * eng.default_chunk_size))) := by
  rw [insert_chunked] at hins
  cases hloop : insert_chunk_loop eng.chunks_dir key data eng.default_chunk_size cf 0
      ((data.length + eng.default_chunk_size - 1) / eng.default_chunk_size)
      eng.disk_files with
  | none => rw [hloop] at hins; cases hins
  | some pr =>
    obtain ⟨files', metas⟩ := pr
    rw [hloop] at hins
    have heng : eng' =
        { eng with
            disk_files := files'
            file_metadata := insertA strLtb eng.file_metadata key
              { key := key
                total_size := data.length
                chunk_size := eng.default_chunk_size
                num_chunks :=
                  (data.length + eng.default_chunk_size - 1) / eng.default_chunk_size
                chunks := metas } } := (Option.some.inj hins).symm
    subst heng
    obtain ⟨hspec, _⟩ := insert_chunk_loop_spec eng.chunks_dir key data
      eng.default_chunk_size cf _ 0 eng.disk_files files' metas hloop
    rw [get_chunk_range]
    rw [lookupA_insertA_self strLtb eng.file_metadata key _]
    simp only
    rw [if_neg (by omega)]
    obtain ⟨chunks', hrun⟩ := read_chunk_loop_run files' eng.chunks_dir key df now
      data eng.default_chunk_size cf (b + 1 - a) a metas
      (fun j hj1 hj2 => hspec j (Nat.zero_le j) (by omega))
    rw [hrun]
    simp only [Option.map_some']
    congr 2
    rw [read_concat_eq_range df cf data eng.default_chunk_size hdf]
    have hd1 : a * eng.default_chunk_size ≤ (b + 1) * eng.default_chunk_size :=
      Nat.mul_le_mul_right _ (by omega)
    have hd2 : (b + 1 - a) * eng.default_chunk_size =
        (b + 1) * eng.default_chunk_size - a * eng.default_chunk_size :=
      Nat.sub_mul (b + 1) a eng.default_chunk_size
    rw [List.drop_take]
    apply List.take_eq_take.mpr
    rw [List.length_drop]
    omega

/-- Witness for C2 at a concrete three-chunk insert. -/
theorem c2_witness :
    Option.map Prod.fst
      (get_chunk_range ((insert_chunked eng_tiny "x" [5, 6, 7] chunk_enc_id).getD
        eng_dummy) "x" 1 2 chunk_dec_id 9) =
      some (some (([5, 6, 7].take (min ((2 + 1) * eng_tiny.default_chunk_size)
        (List.length [5, 6, 7]))).drop (1 * eng_tiny.default_chunk_size))) :=
  c2_get_chunk_range_returns_slice eng_tiny "x" [5, 6, 7] chunk_enc_id chunk_dec_id
    1 2 9 ((insert_chunked eng_tiny "x" [5, 6, 7] chunk_enc_id).getD eng_dummy)
    rfl (by decide) (by decide) (fun x => rfl)

/-- C4 (amended): for a key inserted via `insert_chunked`, a chunk
range read returns an absent result iff `start` or `end` is at or past
`num_chunks`; a call with `start > end` whose endpoints are both below
`num_chunks` passes the validation and returns data — the empty byte
string — rather than an absent result. -/
theorem c4_range_validation (eng : ChunkingEngine) (key : String)
    (data : Bytes) (cf : Bytes → Nat → Bytes) (df : Bytes → Nat → Nat → Bytes)
    (a b now : Nat) (eng' : ChunkingEngine)
    (hins : insert_chunked eng key data cf = some eng') :
    ((data.length + eng.default_chunk_size - 1) / eng.default_chunk_size ≤ a ∨
     (data.length + eng.default_chunk_size - 1) / eng.default_chunk_size ≤ b →
      Option.map Prod.fst (get_chunk_range eng' key a b df now) = some none) ∧
    (a < (data.length + eng.default_chunk_size - 1) / eng.default_chunk_size →
     b < (data.length + eng.default_chunk_size - 1) / eng.default_chunk_size →
      ∃ bs, Option.map Prod.fst (get_chunk_range eng' key a b df now) =
        some (some bs)) := by
  rw [insert_chunked] at hins
  cases hloop : insert_chunk_loop eng.chunks_dir key data eng.default_chunk_size cf 0
      ((data.length + eng.default_chunk_size - 1) / eng.default_chunk_size)
      eng.disk_files with
  | none => rw [hloop] at hins; cases hins
  | some pr =>
    obtain ⟨files', metas⟩ := pr
    rw [hloop] at hins
    have heng : eng' =
        { eng with
            disk_files := files'
            file_metadata := insertA strLtb eng.file_metadata key
              { key := key
                total_size := data.length
                chunk_size := eng.default_chunk_size
                num_chunks :=
                  (data.length + eng.default_chunk_size - 1) / eng.default_chunk_size
                chunks := metas } } := (Option.some.inj hins).symm
    subst heng
    obtain ⟨hspec, _⟩ := insert_chunk_loop_spec eng.chunks_dir key data
      eng.default_chunk_size cf _ 0 eng.disk_files files' metas hloop
    constructor
    · intro hout
      rw [get_chunk_range]
      rw [lookupA_insertA_self strLtb eng.file_metadata key _]
      simp only
      rw [if_pos (by omega)]
      rfl
    · intro ha hbb
      rw [get_chunk_range]
      rw [lookupA_insertA_self strLtb eng.file_metadata key _]
      simp only
      rw [if_neg (by omega)]
      obtain ⟨chunks', hrun⟩ := read_chunk_loop_run files' eng.chunks_dir key df now
        data eng.default_chunk_size cf (b + 1 - a) a metas
        (fun j hj1 hj2 => hspec j (Nat.zero_le j) (by omega))
      rw [hrun]
      exact ⟨_, rfl⟩

/-- Witness for C4 at a concrete two-chunk insert: an in-range call and
an out-of-range call. -/
theorem c4_witness :
    ((List.length [5, 6] + eng_tiny.default_chunk_size - 1) /
        eng_tiny.default_chunk_size ≤ 5 ∨
     (List.length [5, 6] + eng_tiny.default_chunk_size - 1) /
        eng_tiny.default_chunk_size ≤ 0 →
      Option.map Prod.fst
        (get_chunk_range ((insert_chunked eng_tiny "x" [5, 6] chunk_enc_id).getD
          eng_dummy) "x" 5 0 chunk_dec_id 9) = some none) ∧
    (5 < (List.length [5, 6] + eng_tiny.default_chunk_size - 1) /
        eng_tiny.default_chunk_size →
     0 < (List.length [5, 6] + eng_tiny.default_chunk_size - 1) /
        eng_tiny.default_chunk_size →
      ∃ bs, Option.map Prod.fst
        (get_chunk_range ((insert_chunked eng_tiny "x" [5, 6] chunk_enc_id).getD
          eng_dummy) "x" 5 0 chunk_dec_id 9) = some (some bs)) :=
  c4_range_validation eng_tiny "x" [5, 6] chunk_enc_id chunk_dec_id 5 0 9
    ((insert_chunked eng_tiny "x" [5, 6] chunk_enc_id).getD eng_dummy) rfl

/-- Counterexample to C4 as stated: a two-chunk key queried with
`start = 1 > end = 0` (both below `num_chunks`) passes the source's
validation — which only checks `start >= num_chunks || end >=
num_chunks` — and returns the empty byte string, not an absent
result. -/
theorem c4_counterexample :
    Option.map Prod.fst
      (get_chunk_range ((insert_chunked eng_tiny "x" [5, 6] chunk_enc_id).getD
        eng_dummy) "x" 1 0 chunk_dec_id 9) = some (some []) := by
  rfl

end Digestive

